import Mathlib

set_option maxHeartbeats 1000000

namespace WhatdoCore

/-- The task-tree node, mirroring `struct Whatdo` in src/core.rs (fields in
source order).  `whatdos` are the structural children, `queue` is a list of
referenced ids, `simple_format` is the terse-form flag. -/
inductive Whatdo where
  | mk (id : String) (summary : Option String) (whatdos : Option (List Whatdo))
      (queue : Option (List String)) (priority : Option Int)
      (tags : Option (List String)) (branch_name : Option String)
      (simple_format : Bool)

def Whatdo.id : Whatdo → String
  | .mk i _ _ _ _ _ _ _ => i

def Whatdo.summary : Whatdo → Option String
  | .mk _ s _ _ _ _ _ _ => s

def Whatdo.whatdos : Whatdo → Option (List Whatdo)
  | .mk _ _ w _ _ _ _ _ => w

def Whatdo.queue : Whatdo → Option (List String)
  | .mk _ _ _ q _ _ _ _ => q

def Whatdo.priority : Whatdo → Option Int
  | .mk _ _ _ _ p _ _ _ => p

def Whatdo.tags : Whatdo → Option (List String)
  | .mk _ _ _ _ _ t _ _ => t

def Whatdo.branch_name : Whatdo → Option String
  | .mk _ _ _ _ _ _ b _ => b

def Whatdo.simple_format_flag : Whatdo → Bool
  | .mk _ _ _ _ _ _ _ f => f

/-- `Whatdo::simple` in core.rs. -/
def Whatdo.simple (id : String) (summary : Option String) : Whatdo :=
  .mk id summary none none none none none true

/-- The `whatdos()` accessor in core.rs: children list, empty when absent. -/
def Whatdo.whatdosList (wd : Whatdo) : List Whatdo :=
  match wd.whatdos with
  | none => []
  | some wds => wds

/-- The `queue` entries as a plain list (empty when absent); convenience used
to state properties about queues. -/
def Whatdo.queueList (wd : Whatdo) : List String :=
  match wd.queue with
  | none => []
  | some q => q

/-- The `simple_format()` method in core.rs: the terse flag, and the queue,
children, priority and tags fields all absent.  Note the method inspects
neither `summary` nor `branch_name`. -/
def Whatdo.simple_format (wd : Whatdo) : Bool :=
  wd.simple_format_flag
    && wd.queue.isNone
    && wd.whatdos.isNone
    && wd.priority.isNone
    && wd.tags.isNone

/-- The `branch_name()` accessor in core.rs: the override, defaulting to the id. -/
def Whatdo.branchNameEff (wd : Whatdo) : String :=
  match wd.branch_name with
  | some b => b
  | none => wd.id

/-- Character class of `TAG_RE = ^[a-z0-9-_]+$` in core.rs (ASCII ranges). -/
def tagChar (c : Char) : Bool :=
  (Char.ofNat 97 ≤ c && c ≤ Char.ofNat 122)
    || (Char.ofNat 48 ≤ c && c ≤ Char.ofNat 57)
    || c == Char.ofNat 45 || c == Char.ofNat 95

/-- Character class of `ID_RE = ^[a-zA-Z0-9-_/]+$` in core.rs (ASCII ranges). -/
def idChar (c : Char) : Bool :=
  tagChar c || (Char.ofNat 65 ≤ c && c ≤ Char.ofNat 90) || c == Char.ofNat 47

/-- `valid_tag` in core.rs: the whole string matches `^[a-z0-9-_]+$`. -/
def valid_tag (s : String) : Bool :=
  s.length > 0 && s.toList.all tagChar

/-- `valid_id` in core.rs: the whole string matches `^[a-zA-Z0-9-_/]+$`. -/
def valid_id (s : String) : Bool :=
  s.length > 0 && s.toList.all idChar

/-- The filter closure built inside `next` in core.rs (lines 680-689),
translated verbatim: the tag conjunct is `wd.tags.as_ref().map(|ts|
tags.iter().find(|t| ts.contains(t))).is_some()`, whose `is_some` tests the
*outer* option produced by `map`, and the priority conjunct is
`wd.priority.is_some() && priorities.contains(&wd.priority.unwrap())`
(written as the equivalent match on the option). -/
def nextFilter (tags : List String) (priorities : List Int) (wd : Whatdo) : Bool :=
  (tags.length == 0
      || (wd.tags.map (fun ts => tags.find? (fun t => ts.contains t))).isSome)
    && (priorities.length == 0
      || (match wd.priority with
          | some p => priorities.contains p
          | none => false))

/-- The filter predicate as the specification words it (section 4.3):
`(tag_filter empty OR task.tags intersects tag_filter) AND (priority_filter
empty OR task.priority ∈ priority_filter)`.  Defined only to exhibit the
divergence from `nextFilter` above. -/
def specNextFilter (tags : List String) (priorities : List Int) (wd : Whatdo) : Bool :=
  (tags.length == 0
      || (match wd.tags with
          | some ts => tags.any (fun t => ts.contains t)
          | none => false))
    && (priorities.length == 0
      || (match wd.priority with
          | some p => priorities.contains p
          | none => false))

/-- A task carrying the single tag "b": a concrete input on which the code's
filter and the specified filter disagree. -/
def taskTagsB : Whatdo :=
  .mk "t" none none none none (some ["b"]) none false

mutual

/-- First component of `find_whatdo_and_parent` in core.rs: depth-first search
over structural children only, returning the first node satisfying the
predicate (the node itself is tested before its children). -/
def findPred (pred : Whatdo → Bool) : Whatdo → Option Whatdo
  | .mk i s w q p t b f =>
    if pred (.mk i s w q p t b f) then some (.mk i s w q p t b f)
    else
      match w with
      | none => none
      | some wds => findPredList pred wds

/-- The `for wd in whatdos` loop of `find_whatdo_and_parent`: first match in
the child list, in order. -/
def findPredList (pred : Whatdo → Bool) : List Whatdo → Option Whatdo
  | [] => none
  | wd :: rest =>
    match findPred pred wd with
    | some r => some r
    | none => findPredList pred rest

end

/-- `find_whatdo` in core.rs: find by id. -/
def find_whatdo (root : Whatdo) (id : String) : Option Whatdo :=
  findPred (fun wd => wd.id == id) root

mutual

/-- Pre-order list of every node of the tree (the node itself and, recursively,
all structural descendants).  Used to state tree-wide properties. -/
def allNodes : Whatdo → List Whatdo
  | .mk i s w q p t b f =>
    .mk i s w q p t b f ::
      (match w with
       | none => []
       | some wds => allNodesList wds)

def allNodesList : List Whatdo → List Whatdo
  | [] => []
  | wd :: rest => allNodes wd ++ allNodesList rest

end

/-- All structural ids of the tree are pairwise distinct. -/
def UniqueIds (T : Whatdo) : Prop :=
  ((allNodes T).map Whatdo.id).Nodup

instance (T : Whatdo) : Decidable (UniqueIds T) := by
  unfold UniqueIds; infer_instance

theorem sizeOf_sublist {α : Type} [SizeOf α] {l1 l2 : List α} (h : List.Sublist l1 l2) :
    sizeOf l1 ≤ sizeOf l2 := by
  induction h with
  | slnil => exact Nat.le_refl _
  | cons a _ ih => simp only [List.cons.sizeOf_spec]; omega
  | cons₂ a _ ih => simp only [List.cons.sizeOf_spec]; omega

mutual

/-- `delete_whatdo` in core.rs: removes the *first* occurrence of `id` from
this node's queue (`position` + `remove`), removes the *first* structural
child whose id is `id` (`position` + `remove`), then recurses into the
remaining children.  (The `debug_assert!(whatdo.id != id)` is compiled out in
release builds and is not modelled.) -/
def delete_whatdo (wd : Whatdo) (id : String) : Whatdo :=
  match wd with
  | .mk i s w q p t b f =>
    let w2 :=
      match w with
      | none => none
      | some wds => some (deleteList (wds.eraseP (fun c => c.id == id)) id)
    .mk i s w2 (q.map (fun queue => queue.erase id)) p t b f
termination_by sizeOf wd
decreasing_by
  have h1 : sizeOf (wds.eraseP (fun c => c.id == id)) ≤ sizeOf wds :=
    sizeOf_sublist (List.eraseP_sublist _)
  simp only [Whatdo.mk.sizeOf_spec, Option.some.sizeOf_spec]
  omega

def deleteList (l : List Whatdo) (id : String) : List Whatdo :=
  match l with
  | [] => []
  | wd :: rest => delete_whatdo wd id :: deleteList rest id
termination_by sizeOf l
decreasing_by
  · simp only [List.cons.sizeOf_spec]; omega
  · simp only [List.cons.sizeOf_spec]; omega

end

theorem whatdo_size_ind {P : Whatdo → Prop}
    (h : ∀ wd, (∀ c : Whatdo, sizeOf c < sizeOf wd → P c) → P wd) : ∀ wd, P wd :=
  fun wd => h wd (fun c _ => whatdo_size_ind h c)
termination_by wd => sizeOf wd
decreasing_by assumption

theorem sizeOf_mem_whatdos {c wd : Whatdo} (h : c ∈ wd.whatdosList) :
    sizeOf c < sizeOf wd := by
  match wd with
  | .mk i s w q p t b f =>
    match w with
    | none => simp [Whatdo.whatdosList, Whatdo.whatdos] at h
    | some wds =>
      simp only [Whatdo.whatdosList, Whatdo.whatdos] at h
      have := List.sizeOf_lt_of_mem h
      simp only [Whatdo.mk.sizeOf_spec, Option.some.sizeOf_spec]
      omega

theorem allNodes_unfold_none (i s q p t b f) :
    allNodes (.mk i s none q p t b f) = [.mk i s none q p t b f] := by
  simp [allNodes]

theorem allNodes_unfold_some (i s q p t b f) (wds : List Whatdo) :
    allNodes (.mk i s (some wds) q p t b f) =
      .mk i s (some wds) q p t b f :: allNodesList wds := by
  simp [allNodes]

theorem allNodesList_nil : allNodesList [] = [] := by simp [allNodesList]

theorem allNodesList_cons (c : Whatdo) (rest : List Whatdo) :
    allNodesList (c :: rest) = allNodes c ++ allNodesList rest := by
  simp [allNodesList]

theorem whatdosList_unfold (i s q p t b f) (wds : List Whatdo) :
    (Whatdo.mk i s (some wds) q p t b f).whatdosList = wds := rfl

theorem self_mem_allNodes (wd : Whatdo) : wd ∈ allNodes wd := by
  match wd with
  | .mk i s w q p t b f =>
    match w with
    | none => rw [allNodes_unfold_none]; exact List.mem_singleton_self _
    | some wds => rw [allNodes_unfold_some]; exact List.mem_cons_self _ _

theorem mem_allNodesList {n : Whatdo} {l : List Whatdo} :
    n ∈ allNodesList l ↔ ∃ c ∈ l, n ∈ allNodes c := by
  induction l with
  | nil => simp [allNodesList_nil]
  | cons c rest ih => simp [allNodesList_cons, ih]

theorem delete_unfold (i s q p t b f x) (wds : List Whatdo) :
    delete_whatdo (.mk i s (some wds) q p t b f) x =
      .mk i s (some (deleteList (wds.eraseP (fun c => c.id == x)) x))
        (q.map (fun queue => queue.erase x)) p t b f := by
  simp [delete_whatdo]

theorem delete_unfold_none (i s q p t b f x) :
    delete_whatdo (.mk i s none q p t b f) x =
      .mk i s none (q.map (fun queue => queue.erase x)) p t b f := by
  simp [delete_whatdo]

theorem deleteList_cons (c : Whatdo) (rest : List Whatdo) (x : String) :
    deleteList (c :: rest) x = delete_whatdo c x :: deleteList rest x := by
  simp [deleteList]

theorem deleteList_nil (x : String) : deleteList [] x = [] := by simp [deleteList]

theorem delete_id (wd : Whatdo) (x : String) : (delete_whatdo wd x).id = wd.id := by
  match wd with
  | .mk i s w q p t b f =>
    match w with
    | none => rw [delete_unfold_none]; rfl
    | some wds => rw [delete_unfold]; rfl

theorem delete_queueList (wd : Whatdo) (x : String) :
    (delete_whatdo wd x).queueList = wd.queueList.erase x := by
  match wd with
  | .mk i s w q p t b f =>
    have h : ∀ w2, (Whatdo.mk i s w2 (q.map (fun queue => queue.erase x)) p t b f).queueList
        = (Whatdo.mk i s w q p t b f).queueList.erase x := by
      intro w2
      match q with
      | none => rfl
      | some ql => rfl
    match w with
    | none => rw [delete_unfold_none]; exact h none
    | some wds => rw [delete_unfold]; exact h _

theorem nodes_deleteList_aux (x : String) (l : List Whatdo)
    (IH : ∀ c ∈ l, ∀ n ∈ allNodes (delete_whatdo c x),
      ∃ m, m ∈ allNodes c ∧ n = delete_whatdo m x) :
    ∀ n ∈ allNodesList (deleteList l x),
      ∃ m, m ∈ allNodesList l ∧ n = delete_whatdo m x := by
  induction l with
  | nil => simp [deleteList_nil, allNodesList_nil]
  | cons c rest ih =>
    intro n hn
    rw [deleteList_cons, allNodesList_cons] at hn
    rcases List.mem_append.mp hn with h | h
    · obtain ⟨m, hm, he⟩ := IH c (List.mem_cons_self _ _) n h
      exact ⟨m, by rw [allNodesList_cons]; exact List.mem_append.mpr (Or.inl hm), he⟩
    · obtain ⟨m, hm, he⟩ := ih (fun c hc => IH c (List.mem_cons_of_mem _ hc)) n h
      exact ⟨m, by rw [allNodesList_cons]; exact List.mem_append.mpr (Or.inr hm), he⟩

theorem nodes_delete (x : String) : ∀ wd : Whatdo,
    ∀ n ∈ allNodes (delete_whatdo wd x),
      ∃ m, m ∈ allNodes wd ∧ n = delete_whatdo m x := by
  apply whatdo_size_ind
  intro wd IH n hn
  match wd with
  | .mk i s w q p t b f =>
    match w with
    | none =>
      rw [delete_unfold_none, allNodes_unfold_none] at hn
      rcases List.mem_singleton.mp hn with hn
      exact ⟨.mk i s none q p t b f, self_mem_allNodes _, by rw [hn, delete_unfold_none]⟩
    | some wds =>
      rw [delete_unfold, allNodes_unfold_some] at hn
      rcases List.mem_cons.mp hn with hn | hn
      · exact ⟨.mk i s (some wds) q p t b f, self_mem_allNodes _, by rw [hn, delete_unfold]⟩
      · have haux := nodes_deleteList_aux x (wds.eraseP (fun c => c.id == x))
          (fun c hc => IH c (sizeOf_mem_whatdos (by
            rw [whatdosList_unfold]
            exact (List.eraseP_sublist _).mem hc)))
          n hn
        obtain ⟨m, hm, he⟩ := haux
        refine ⟨m, ?_, he⟩
        rw [allNodes_unfold_some]
        refine List.mem_cons_of_mem _ ?_
        rcases mem_allNodesList.mp hm with ⟨c, hc, hmc⟩
        exact mem_allNodesList.mpr ⟨c, (List.eraseP_sublist _).mem hc, hmc⟩

/-- The comparator passed to `whatdos.sort_by(...)` in `sort_whatdos`,
as a boolean order: `priLe a b` holds iff the Rust comparator does not return
`Greater` on `(a, b)`: priorities compare ascending and a missing priority
compares after every present one. -/
def priLe (a b : Whatdo) : Bool :=
  match a.priority, b.priority with
  | some pa, some pb => pa ≤ pb
  | none, some _ => false
  | some _, none => true
  | none, none => true

/-- The child ordering produced by `whatdos.sort_by(...)` in `sort_whatdos`.
Rust's `slice::sort_by` is a stable sort with respect to the comparator, and
`List.mergeSort` is the stable sort for the same total preorder, so the two
agree. -/
def sortChildren (l : List Whatdo) : List Whatdo :=
  l.mergeSort priLe

mutual

/-- Fuel-indexed embedding of `sort_whatdos` in core.rs.  One unit of fuel is
consumed per recursive call of the Rust function, so an input on which the
Rust recursion never returns yields `none` at every fuel, and a terminating
input yields `some` for all sufficiently large fuel.  Returns the emitted
sequence together with the final `visited` set (a mutable `HashSet` in Rust;
modelled as the list of inserted ids, queried only through membership). -/
def sortFuel : Nat → Whatdo → (Whatdo → Bool) → List String → Bool →
    Option (List Whatdo × List String)
  | 0, _, _, _, _ => none
  | n + 1, wd, fl, vis, anc =>
    let sat := fl wd || anc
    match sortQueueLoop n wd fl wd.queueList vis sat with
    | none => none
    | some (rq, vis1) =>
      match wd.whatdos with
      | some l =>
        if l.length > 0 then
          match sortChildLoop n fl (sortChildren l) vis1 sat with
          | none => none
          | some (rc, vis2) => some (rq ++ rc, vis2)
        else
          some (if sat && !(vis1.contains wd.id) then rq ++ [wd] else rq, vis1)
      | none =>
        some (if sat && !(vis1.contains wd.id) then rq ++ [wd] else rq, vis1)
termination_by n _ _ _ _ => (n, 0)

/-- The `for id in queue` loop of `sort_whatdos`: skip visited ids, resolve
each id inside this node's own subtree (warn-and-skip when unresolved),
recurse, then mark the id visited. -/
def sortQueueLoop : Nat → Whatdo → (Whatdo → Bool) → List String → List String → Bool →
    Option (List Whatdo × List String)
  | _, _, _, [], vis, _ => some ([], vis)
  | n, wd, fl, id :: rest, vis, sat =>
    if vis.contains id then sortQueueLoop n wd fl rest vis sat
    else
      match find_whatdo wd id with
      | none => sortQueueLoop n wd fl rest vis sat
      | some qwd =>
        match sortFuel n qwd fl vis sat with
        | none => none
        | some (r, vis2) =>
          match sortQueueLoop n wd fl rest (id :: vis2) sat with
          | none => none
          | some (r2, vis3) => some (r ++ r2, vis3)
termination_by n _ _ q _ _ => (n, q.length + 1)

/-- The `for subwhatdo in whatdos` loop of `sort_whatdos` over the
priority-sorted children: skip visited children, recurse, then mark the
child's id visited. -/
def sortChildLoop : Nat → (Whatdo → Bool) → List Whatdo → List String → Bool →
    Option (List Whatdo × List String)
  | _, _, [], vis, _ => some ([], vis)
  | n, fl, c :: rest, vis, sat =>
    if vis.contains c.id then sortChildLoop n fl rest vis sat
    else
      match sortFuel n c fl vis sat with
      | none => none
      | some (r, vis2) =>
        match sortChildLoop n fl rest (c.id :: vis2) sat with
        | none => none
        | some (r2, vis3) => some (r ++ r2, vis3)
termination_by n _ l _ _ => (n, l.length + 1)

end

/-- `NextAmount` in core.rs. -/
inductive NextAmount where
  | all : NextAmount
  | atMost : Nat → NextAmount

/-- The final truncation of `next`: everything, or the first `n` items. -/
def nextTake (amount : NextAmount) (l : List Whatdo) : List Whatdo :=
  match amount with
  | .all => l
  | .atMost n => l.take n

/-- The pure core of `next` in core.rs: the visited set is pre-seeded with the
active task's id; the active task's subtree is sorted first, then the root's,
sharing the visited set; the concatenation is truncated to `amount`.  The
loaded tree and the active task (looked up via the current git branch in the
code) are parameters, as is the recursion fuel. -/
def nextModel (fuel : Nat) (root : Whatdo) (currentWd : Option Whatdo)
    (amount : NextAmount) (tags : List String) (priorities : List Int) :
    Option (List Whatdo) :=
  let vis0 : List String := match currentWd with | some c => [c.id] | none => []
  let fl := nextFilter tags priorities
  match currentWd with
  | some c =>
    match sortFuel fuel c fl vis0 false with
    | none => none
    | some (r1, vis1) =>
      match sortFuel fuel root fl vis1 false with
      | none => none
      | some (r2, _) => some (nextTake amount (r1 ++ r2))
  | none =>
    match sortFuel fuel root fl vis0 false with
    | none => none
    | some (r2, _) => some (nextTake amount r2)

/-- `sort_whatdos` on these arguments returns for some fuel, i.e. the Rust
recursion terminates there. -/
def SortTerminates (wd : Whatdo) (fl : Whatdo → Bool) (vis : List String) (anc : Bool) : Prop :=
  ∃ n res, sortFuel n wd fl vis anc = some res

/-- No node's queue references the node's own id. -/
def SelfQueueFree (T : Whatdo) : Prop :=
  ∀ n ∈ allNodes T, n.id ∉ n.queueList

/-- The always-true filter. -/
def trueFilter : Whatdo → Bool := fun _ => true

/-- A node whose queue references its own id: `sort_whatdos` loops forever on
it, since the id resolves (within the node's own subtree) to the node itself
and `visited` is untouched before the recursive call. -/
def selfQueueWd : Whatdo := .mk "s" none none (some ["s"]) none none none false

/-- A childless root: it is its own leaf, so `sort_whatdos` emits it. -/
def rootLeaf : Whatdo := .mk "r" none none none none none none false

theorem sizeOf_whatdosList (wd : Whatdo) : sizeOf wd.whatdosList < sizeOf wd := by
  match wd with
  | .mk i s w q p t b f =>
    match w with
    | none =>
      simp only [Whatdo.whatdosList, Whatdo.whatdos, Whatdo.mk.sizeOf_spec,
        Option.none.sizeOf_spec, List.nil.sizeOf_spec]
      omega
    | some wds =>
      simp only [Whatdo.whatdosList, Whatdo.whatdos, Whatdo.mk.sizeOf_spec,
        Option.some.sizeOf_spec]
      omega

/-- One printed line of the tree view: a dimmed flushed-context line
(`{:>>width}[id]`), a full display line for a directly matching node, or a
dimmed id line for a transitively matching node.  The `Nat` is the `width`
passed to the format string; the display text itself (colours, deslugified
summary) is not modelled, only which node each line renders and how. -/
inductive RLine where
  | context : String → Nat → RLine
  | full : Whatdo → Nat → RLine
  | dim : String → Nat → RLine

/-- The id a printed line is labelled with. -/
def RLine.lineId : RLine → String
  | .context s _ => s
  | .full wd _ => wd.id
  | .dim s _ => s

/-- The flush of the buffered unprinted path in `fmt_rec`: the i-th buffered
id is printed dimmed at width `level - (len - i) - 1`. -/
def flushLines (buf : List String) (level : Nat) : List RLine :=
  buf.enum.map (fun p => RLine.context p.2 (level - (buf.length - p.1) - 1))

mutual

/-- `WhatdoTreeView::fmt_rec` in core.rs, with the emitted lines made
explicit: returns the lines printed by this subtree visit and the resulting
`unprinted_path` buffer. -/
def fmtRec (fl : Whatdo → Bool) (tr : Bool) (rootId : String) (wd : Whatdo)
    (buf : List String) (level : Nat) (anc : Bool) : List RLine × List String :=
  let sat := fl wd
  let trans := sat || (tr && anc)
  let start :=
    if wd.id ≠ rootId then
      let flashed := if trans then (flushLines buf level, ([] : List String)) else ([], buf)
      if sat then (flashed.1 ++ [RLine.full wd (level - 1)], flashed.2)
      else if trans then (flashed.1 ++ [RLine.dim wd.id (level - 1)], flashed.2)
      else (flashed.1, flashed.2 ++ [wd.id])
    else ([], buf)
  let child := fmtRecList fl tr rootId wd.whatdosList start.2 (level + 1) trans
  let buf3 := if child.2.getLast? = some wd.id then child.2.dropLast else child.2
  (start.1 ++ child.1, buf3)
termination_by sizeOf wd
decreasing_by
  have := sizeOf_whatdosList wd
  omega

/-- The `for wd in whatdo.whatdos()` loop of `fmt_rec`. -/
def fmtRecList (fl : Whatdo → Bool) (tr : Bool) (rootId : String) (l : List Whatdo)
    (buf : List String) (level : Nat) (anc : Bool) : List RLine × List String :=
  match l with
  | [] => ([], buf)
  | c :: rest =>
    let first := fmtRec fl tr rootId c buf level anc
    let next := fmtRecList fl tr rootId rest first.2 level anc
    (first.1 ++ next.1, next.2)
termination_by sizeOf l
decreasing_by
  · simp only [List.cons.sizeOf_spec]; omega
  · simp only [List.cons.sizeOf_spec]; omega

end

/-- The `Display` instance of `WhatdoTreeView`: run `fmt_rec` from the root
with an empty buffer, depth 0, and no matched ancestor; the view's output is
the emitted line sequence. -/
def renderModel (fl : Whatdo → Bool) (tr : Bool) (root : Whatdo) : List RLine :=
  (fmtRec fl tr root.id root [] 0 false).1

/-- Model of `serde_yaml::Value` as used by this program: strings, integers
(the only numbers the code produces; non-integer numbers are rejected by
`as_i64`, modelled by `fitsI64` below), booleans and null (rejected or
ignored by the parser), sequences, and mappings.  A mapping is its list of
key-value pairs in order; `serde_yaml`'s `Mapping` is an insertion-ordered
map whose keys are unique, captured by the `keysOk` side condition. -/
inductive Yaml where
  | str : String → Yaml
  | int : Int → Yaml
  | bool : Bool → Yaml
  | null : Yaml
  | seq : List Yaml → Yaml
  | map : List (Yaml × Yaml) → Yaml

/-- Whether a Yaml value is the string `s`. -/
def Yaml.isStr (v : Yaml) (s : String) : Bool :=
  match v with
  | .str t => t == s
  | _ => false

/-- Key equality as used by `Mapping::insert`: serde compares keys by full
value equality; this program only ever inserts string keys, for which this
comparison agrees. -/
def yamlStrEq (a b : Yaml) : Bool :=
  match a, b with
  | .str x, .str y => x == y
  | _, _ => false

/-- `Mapping::get(&str)` in serde_yaml: the value of the entry whose key is
the given string. -/
def mapGet (m : List (Yaml × Yaml)) (k : String) : Option Yaml :=
  (m.find? (fun p => p.1.isStr k)).map (fun p => p.2)

/-- `Mapping::insert` in serde_yaml: replace the value of an existing equal
key in place, else append the new entry at the end. -/
def mapInsert (m : List (Yaml × Yaml)) (k : Yaml) (v : Yaml) : List (Yaml × Yaml) :=
  match m with
  | [] => [(k, v)]
  | (k2, v2) :: rest =>
    if yamlStrEq k2 k then (k2, v) :: rest
    else (k2, v2) :: mapInsert rest k v

/-- `Number::as_i64` succeeds: the integer fits in a signed 64-bit word. -/
def fitsI64 (n : Int) : Bool :=
  decide (-(2 ^ 63) ≤ n) && decide (n < 2 ^ 63)

/-- The string keys of a mapping, in order. -/
def strKeys (m : List (Yaml × Yaml)) : List String :=
  m.filterMap (fun p => match p.1 with | .str s => some s | _ => none)

/-- Boolean duplicate-freedom check for key lists. -/
def nodupB : List String → Bool
  | [] => true
  | s :: rest => !(rest.contains s) && nodupB rest

mutual

/-- The invariant every document loaded through serde_yaml satisfies: every
mapping in the tree has pairwise-distinct string keys (an IndexMap cannot
hold two equal keys).  The round-trip property is stated under this
side condition. -/
def keysOk : Yaml → Bool
  | .str _ => true
  | .int _ => true
  | .bool _ => true
  | .null => true
  | .seq l => keysOkList l
  | .map m => nodupB (strKeys m) && keysOkPairs m

def keysOkPairs : List (Yaml × Yaml) → Bool
  | [] => true
  | (k, v) :: rest => keysOk k && keysOk v && keysOkPairs rest

def keysOkList : List Yaml → Bool
  | [] => true
  | v :: rest => keysOk v && keysOkList rest

end

/-- The `summary` extraction of `parse_whatdo`. -/
def getSummary (items : List (Yaml × Yaml)) : Except String (Option String) :=
  match mapGet items "summary" with
  | none => .ok none
  | some (.str s) => .ok (some s)
  | some _ => .error "Expected 'summary' to be a string"

/-- The `queue` extraction of `parse_whatdo` (type check only; the entries
are validated afterwards, as in the source). -/
def getQueueRaw (items : List (Yaml × Yaml)) : Except String (Option (List Yaml)) :=
  match mapGet items "queue" with
  | none => .ok none
  | some (.seq s) => .ok (some s)
  | some _ => .error "Expected 'queue' to be a sequence"

/-- The `priority` extraction of `parse_whatdo`, including the `as_i64`
conversion. -/
def getPriority (items : List (Yaml × Yaml)) : Except String (Option Int) :=
  match mapGet items "priority" with
  | none => .ok none
  | some (.int n) =>
    if fitsI64 n then .ok (some n) else .error "Expected 'priority' to be an integer"
  | some _ => .error "Expected 'priority' to be a number"

/-- The `tags` extraction of `parse_whatdo` (type check only). -/
def getTagsRaw (items : List (Yaml × Yaml)) : Except String (Option (List Yaml)) :=
  match mapGet items "tags" with
  | none => .ok none
  | some (.seq s) => .ok (some s)
  | some _ => .error "Expected 'tags' to be a sequence"

/-- The `branch_name` extraction of `parse_whatdo`. -/
def getBranchName (items : List (Yaml × Yaml)) : Except String (Option String) :=
  match mapGet items "branch_name" with
  | none => .ok none
  | some (.str s) => .ok (some s)
  | some _ => .error "Expected 'branch_name' to be a string"

/-- `parse_queue_sequence` in core.rs: every entry must be a string matching
the id pattern; the first offending entry aborts. -/
def parse_queue_sequence : List Yaml → Except String (List String)
  | [] => .ok []
  | v :: rest =>
    match v with
    | .str s =>
      if valid_id s then
        match parse_queue_sequence rest with
        | .error e => .error e
        | .ok r => .ok (s :: r)
      else .error ("Invalid whatdo ID: " ++ s)
    | _ => .error "Expected sequence item to be a string"

/-- `parse_tags_sequence` in core.rs. -/
def parse_tags_sequence : List Yaml → Except String (List String)
  | [] => .ok []
  | v :: rest =>
    match v with
    | .str s =>
      if valid_tag s then
        match parse_tags_sequence rest with
        | .error e => .error e
        | .ok r => .ok (s :: r)
      else .error ("Invalid tag: " ++ s)
    | _ => .error "Expected sequence item to be a string"

theorem sizeOf_mapGet {m : List (Yaml × Yaml)} {k : String} {v : Yaml}
    (h : mapGet m k = some v) : sizeOf v < sizeOf m := by
  rw [mapGet] at h
  rcases hf : m.find? (fun p => p.1.isStr k) with _ | p
  · rw [hf] at h
    exact absurd h (by simp)
  · rw [hf] at h
    simp at h
    have hm := List.mem_of_find?_eq_some hf
    have h1 := List.sizeOf_lt_of_mem hm
    match p with
    | (kk, vv) =>
      have hv : vv = v := h
      subst hv
      simp only [Prod.mk.sizeOf_spec] at h1
      omega


/-- The remaining (non-recursive) fields of the mapping form of
`parse_whatdo`: queue, priority, tags, branch_name, then validation of the
queue and tags entries, then the node construction with
`simple_format = false`. -/
def parse_whatdo_rest (items : List (Yaml × Yaml)) (id : String)
    (summary : Option String) (children : Option (List Whatdo)) :
    Except String Whatdo :=
  match getQueueRaw items with
  | .error e => .error e
  | .ok queueRaw =>
    match getPriority items with
    | .error e => .error e
    | .ok priority =>
      match getTagsRaw items with
      | .error e => .error e
      | .ok tagsRaw =>
        match getBranchName items with
        | .error e => .error e
        | .ok branch =>
          match (match queueRaw with
                 | none => .ok none
                 | some s =>
                   match parse_queue_sequence s with
                   | .error e => .error e
                   | .ok q => .ok (some q) :
                 Except String (Option (List String))) with
          | .error e => .error e
          | .ok queue =>
            match (match tagsRaw with
                   | none => .ok none
                   | some s =>
                     match parse_tags_sequence s with
                     | .error e => .error e
                     | .ok tg => .ok (some tg) :
                   Except String (Option (List String))) with
            | .error e => .error e
            | .ok tags =>
              .ok (.mk id summary children queue priority tags branch false)

mutual

/-- `parse_whatdo` in core.rs: a string value is the terse form; a mapping is
parsed field by field and builds a node with `simple_format = false`; any
other value is rejected.  (The field reads are sequenced here in one pass,
with the recursive child parse immediately after the `whatdos` extraction;
this matches the source on every successful parse and rejects exactly the
same documents, though when several fields are invalid a different error
message may win.) -/
def parse_whatdo (id : String) (data : Yaml) : Except String Whatdo :=
  match data with
  | .str s => .ok (Whatdo.simple id (some s))
  | .map items =>
    match getSummary items with
    | .error e => .error e
    | .ok summary =>
      match hw : mapGet items "whatdos" with
      | some (.map d) =>
        match parse_whatdo_map d with
        | .error e => .error e
        | .ok children => parse_whatdo_rest items id summary (some children)
      | some _ => .error "Expected 'whatdos' to be a mapping"
      | none => parse_whatdo_rest items id summary none
  | _ => .error "Whatdo data must be string or mapping"
termination_by sizeOf data
decreasing_by
  have h1 := sizeOf_mapGet hw
  simp only [Yaml.map.sizeOf_spec] at h1 ⊢
  omega

/-- `parse_whatdo_map` in core.rs: each entry's key must be a string matching
the id pattern and becomes the child's id; entries parse in order, the first
error aborting. -/
def parse_whatdo_map : List (Yaml × Yaml) → Except String (List Whatdo)
  | [] => .ok []
  | (k, v) :: rest =>
    match k with
    | .str s =>
      if valid_id s then
        match parse_whatdo s v with
        | .error e => .error e
        | .ok wd =>
          match parse_whatdo_map rest with
          | .error e => .error e
          | .ok wds => .ok (wd :: wds)
      else .error ("Invalid whatdo ID: " ++ s)
    | _ => .error "Expected mapping key to be a string"
termination_by m => sizeOf m
decreasing_by
  · simp only [List.cons.sizeOf_spec, Prod.mk.sizeOf_spec]
    omega
  · simp only [List.cons.sizeOf_spec, Prod.mk.sizeOf_spec]
    omega

end

theorem sizeOf_whatdos_some {wd : Whatdo} {wds : List Whatdo}
    (h : wd.whatdos = some wds) : sizeOf wds < sizeOf wd := by
  match wd with
  | .mk i s w q p t b f =>
    simp only [Whatdo.whatdos] at h
    subst h
    simp only [Whatdo.mk.sizeOf_spec, Option.some.sizeOf_spec]
    omega

mutual

/-- `serialize_whatdo` in core.rs: the terse string form when
`simple_format()` holds and a summary is present (an empty mapping when the
summary is absent); otherwise the full mapping form, inserting only the
present fields in source order: summary, priority, branch_name, tags, queue,
whatdos. -/
def serialize_whatdo (wd : Whatdo) : Yaml × Yaml :=
  if wd.simple_format then
    match wd.summary with
    | some s => (.str wd.id, .str s)
    | none => (.str wd.id, .map [])
  else (.str wd.id, .map (serializeFields wd))
termination_by (sizeOf wd, 1)
decreasing_by
  exact Prod.Lex.right _ (by omega)

/-- The mapping built by the non-terse branch of `serialize_whatdo`. -/
def serializeFields (wd : Whatdo) : List (Yaml × Yaml) :=
  let m1 := match wd.summary with
    | some s => mapInsert [] (.str "summary") (.str s)
    | none => []
  let m2 := match wd.priority with
    | some p => mapInsert m1 (.str "priority") (.int p)
    | none => m1
  let m3 := match wd.branch_name with
    | some b => mapInsert m2 (.str "branch_name") (.str b)
    | none => m2
  let m4 := match wd.tags with
    | some tags => mapInsert m3 (.str "tags") (.seq (tags.map Yaml.str))
    | none => m3
  let m5 := match wd.queue with
    | some q => mapInsert m4 (.str "queue") (.seq (q.map Yaml.str))
    | none => m4
  match hw : wd.whatdos with
  | some wds => mapInsert m5 (.str "whatdos") (.map (serializeChildrenAux [] wds))
  | none => m5
termination_by (sizeOf wd, 0)
decreasing_by
  exact Prod.Lex.left _ _ (sizeOf_whatdos_some hw)

/-- The loop building `whatdo_mapping` in `serialize_whatdo`: serialize each
child and insert the returned key-value pair. -/
def serializeChildrenAux (acc : List (Yaml × Yaml)) (l : List Whatdo) :
    List (Yaml × Yaml) :=
  match l with
  | [] => acc
  | sub :: rest =>
    match serialize_whatdo sub with
    | (k, v) => serializeChildrenAux (mapInsert acc k v) rest
termination_by (sizeOf l, 0)
decreasing_by
  · refine Prod.Lex.left _ _ ?_
    simp only [List.cons.sizeOf_spec]
    omega
  · refine Prod.Lex.left _ _ ?_
    simp only [List.cons.sizeOf_spec]
    omega

end

/-- A hand-built task with the terse flag set, a summary, and a branch_name:
`simple_format()` does not inspect `branch_name`, so serialization drops it
and produces the shorthand string form. -/
def wdC6 : Whatdo := .mk "a" (some "s") none none none none (some "b") true

/-- A task in the mapping form (terse flag unset) with only a priority. -/
def wdC6b : Whatdo := .mk "a" none none none none none none false

/-- The `new_whatdo` literal built by `add` in core.rs: a leaf with no queue
and no children, `simple_format: false`, and `tags` present only when the
tag list is non-empty. -/
def newWhatdo (id : String) (tags : List String) (summary : Option String)
    (priority : Option Int) (branch_name : Option String) : Whatdo :=
  .mk id summary none none priority
    (if tags.length > 0 then some tags else none) branch_name false

/-- The child push of `add` in core.rs: `if parent_wd.whatdos.is_none() {
parent_wd.whatdos = Some(Vec::new()); }` followed by `push`. -/
def appendChild (wd : Whatdo) (new : Whatdo) : Whatdo :=
  match wd with
  | .mk i s w q p t b f =>
    .mk i s (some ((match w with | none => [] | some wds => wds) ++ [new])) q p t b f

mutual

/-- `find_whatdo_mut` in core.rs composed with the child push of `add`:
locate the first node (depth-first, a node before its children) satisfying
the predicate and append `new` to its children; `none` when no node
matches.  Returns the updated tree together with the updated parent node
(the `parent_wd` reference of the source). -/
def addAt (pred : Whatdo → Bool) (new : Whatdo) : Whatdo → Option (Whatdo × Whatdo)
  | .mk i s w q p t b f =>
    if pred (.mk i s w q p t b f) then
      some (appendChild (.mk i s w q p t b f) new, appendChild (.mk i s w q p t b f) new)
    else
      match w with
      | none => none
      | some wds =>
        match addAtList pred new wds with
        | none => none
        | some (wds2, p2) => some (.mk i s (some wds2) q p t b f, p2)

/-- The `for wd in whatdos` loop of `find_whatdo_mut`: first matching child
subtree, in order; the others are kept as they are. -/
def addAtList (pred : Whatdo → Bool) (new : Whatdo) :
    List Whatdo → Option (List Whatdo × Whatdo)
  | [] => none
  | wd :: rest =>
    match addAt pred new wd with
    | some (wd2, p2) => some (wd2 :: rest, p2)
    | none =>
      match addAtList pred new rest with
      | none => none
      | some (rest2, p2) => some (wd :: rest2, p2)

end

/-- The distinct failure modes of `add` in core.rs, in source order. -/
inductive AddError where
  | duplicateId
  | invalidTag
  | invalidId
  | duplicateBranch
  | branchExists
  | noCurrentWhatdo
  | parentNotFound

/-- `add` in core.rs (lines 580-665) as a function of the parsed tree.  The
checks run in source order: id collision anywhere in the tree, tag
validation, id validation, effective-branch-name collision anywhere in the
tree, existing git branch, then parent resolution (an explicit id, with
`"@"` resolving through the current whatdo, or the root when absent).  The
first component of the result is the tree passed to `write_to_file` —
`none` on every error path, where the source returns before any mutation —
and the second mirrors the source's `(new_whatdo, parent)` return value.
The current whatdo and the git branch-existence oracle are parameters. -/
def add (root : Whatdo) (id : String) (tags : List String)
    (summary : Option String) (priority : Option Int)
    (branch_name : Option String) (parent_id : Option String)
    (currentWd : Option Whatdo) (gitBranchExists : String → Bool) :
    Option Whatdo × Except AddError (Whatdo × Option Whatdo) :=
  if (findPred (fun wd => wd.id == id) root).isSome then
    (none, .error .duplicateId)
  else if !(tags.all valid_tag) then (none, .error .invalidTag)
  else if !(valid_id id) then (none, .error .invalidId)
  else if (findPred (fun wd =>
      (newWhatdo id tags summary priority branch_name).branchNameEff
        == wd.branchNameEff) root).isSome then
    (none, .error .duplicateBranch)
  else if gitBranchExists (newWhatdo id tags summary priority branch_name).branchNameEff then
    (none, .error .branchExists)
  else
    match parent_id with
    | some pid =>
      match (if pid == "@" then
               match currentWd with
               | none => .error AddError.noCurrentWhatdo
               | some c => .ok c.id
             else .ok pid : Except AddError String) with
      | .error e => (none, .error e)
      | .ok npid =>
        match addAt (fun wd => wd.id == npid)
            (newWhatdo id tags summary priority branch_name) root with
        | none => (none, .error .parentNotFound)
        | some (root2, p2) =>
          (some root2, .ok (newWhatdo id tags summary priority branch_name, some p2))
    | none =>
      (some (appendChild root (newWhatdo id tags summary priority branch_name)),
        .ok (newWhatdo id tags summary priority branch_name, none))

mutual

/-- The depth-first path from a tree's root to the first node carrying the
given id, inclusive of both ends: the spine along which `fmt_rec` buffers
ids before a filter match flushes them.  `none` when no node has the id. -/
def pathTo (x : String) : Whatdo → Option (List Whatdo)
  | .mk i s w q p t b f =>
    if (Whatdo.mk i s w q p t b f).id == x then some [.mk i s w q p t b f]
    else
      match w with
      | none => none
      | some wds =>
        match pathToList x wds with
        | none => none
        | some rest => some (.mk i s w q p t b f :: rest)

/-- First child subtree containing the id, in order. -/
def pathToList (x : String) : List Whatdo → Option (List Whatdo)
  | [] => none
  | c :: rest =>
    match pathTo x c with
    | some p => some p
    | none => pathToList x rest

end

instance (T : Whatdo) : Decidable (SelfQueueFree T) := by
  unfold SelfQueueFree; infer_instance

/-- A leaf task with id "x". -/
def leafX : Whatdo := .mk "x" none none none none none none false

/-- A root whose queue lists "x" twice and owns the child `leafX`. -/
def treeQdup : Whatdo := .mk "r" none (some [leafX]) (some ["x", "x"]) none none none false

/-- A root owning two structural children that both have id "x". -/
def treeCdup : Whatdo := .mk "r" none (some [leafX, leafX]) none none none none false

/-- A tree with unique ids used as the concrete witness input for C3:
root "r" with queue ["x"] and single child `leafX`. -/
def treeQ1 : Whatdo := .mk "r" none (some [leafX]) (some ["x"]) none none none false

theorem findPred_unfold_none (pr : Whatdo → Bool) (i s q p t b f) :
    findPred pr (.mk i s none q p t b f) =
      if pr (.mk i s none q p t b f) then some (.mk i s none q p t b f) else none := by
  simp [findPred]

theorem findPred_unfold_some (pr : Whatdo → Bool) (i s q p t b f) (wds : List Whatdo) :
    findPred pr (.mk i s (some wds) q p t b f) =
      if pr (.mk i s (some wds) q p t b f) then some (.mk i s (some wds) q p t b f)
      else findPredList pr wds := by
  simp [findPred]

theorem findPredList_nil (pr : Whatdo → Bool) : findPredList pr [] = none := by
  simp [findPredList]

theorem findPredList_cons_some {pr : Whatdo → Bool} {wd r} (rest : List Whatdo)
    (h : findPred pr wd = some r) : findPredList pr (wd :: rest) = some r := by
  simp [findPredList, h]

theorem findPredList_cons_none {pr : Whatdo → Bool} {wd} (rest : List Whatdo)
    (h : findPred pr wd = none) : findPredList pr (wd :: rest) = findPredList pr rest := by
  simp [findPredList, h]

theorem findPredList_eq_none_aux (pr : Whatdo → Bool) (l : List Whatdo)
    (IH : ∀ c ∈ l, (findPred pr c = none ↔ ∀ n ∈ allNodes c, pr n = false)) :
    findPredList pr l = none ↔ ∀ n ∈ allNodesList l, pr n = false := by
  induction l with
  | nil => simp [findPredList_nil, allNodesList_nil]
  | cons c rest ih =>
    have ihr := ih (fun c hc => IH c (List.mem_cons_of_mem _ hc))
    rcases h : findPred pr c with _ | r
    · rw [findPredList_cons_none rest h, allNodesList_cons]
      have hcpart := (IH c (List.mem_cons_self _ _)).mp h
      constructor
      · intro hnone n hn
        rcases List.mem_append.mp hn with hn | hn
        · exact hcpart n hn
        · exact (ihr.mp hnone) n hn
      · intro hall
        exact ihr.mpr (fun n hn => hall n (List.mem_append.mpr (Or.inr hn)))
    · rw [findPredList_cons_some rest h, allNodesList_cons]
      constructor
      · intro hcontra; exact absurd hcontra (by simp)
      · intro hall
        have : findPred pr c = none :=
          (IH c (List.mem_cons_self _ _)).mpr
            (fun n hn => hall n (List.mem_append.mpr (Or.inl hn)))
        rw [h] at this
        exact absurd this (by simp)

theorem findPred_eq_none_iff (pr : Whatdo → Bool) : ∀ wd : Whatdo,
    findPred pr wd = none ↔ ∀ n ∈ allNodes wd, pr n = false := by
  apply whatdo_size_ind
  intro wd IH
  match wd with
  | .mk i s w q p t b f =>
    match w with
    | none =>
      rw [findPred_unfold_none, allNodes_unfold_none]
      rcases hpr : pr (.mk i s none q p t b f) with _ | _
      · simp [hpr]
      · simp [hpr]
    | some wds =>
      rw [findPred_unfold_some, allNodes_unfold_some]
      have haux := findPredList_eq_none_aux pr wds
        (fun c hc => IH c (sizeOf_mem_whatdos (by rw [whatdosList_unfold]; exact hc)))
      rcases hpr : pr (.mk i s (some wds) q p t b f) with _ | _
      · rw [if_neg (by simp : ¬ (false = true)), haux]
        constructor
        · intro hall n hn
          rcases List.mem_cons.mp hn with hn | hn
          · rw [hn]; exact hpr
          · exact hall n hn
        · intro hall n hn
          exact hall n (List.mem_cons_of_mem _ hn)
      · simp [hpr]

theorem delete_no_id_aux (x : String) (l : List Whatdo)
    (IH : ∀ c ∈ l, ((allNodes c).map Whatdo.id).count x ≤ 1 → c.id ≠ x →
        ∀ n ∈ allNodes (delete_whatdo c x), n.id ≠ x)
    (hc : ((allNodesList l).map Whatdo.id).count x ≤ 1) :
    ∀ n ∈ allNodesList (deleteList (l.eraseP (fun c => c.id == x)) x), n.id ≠ x := by
  induction l with
  | nil =>
    intro n hn
    rw [List.eraseP_nil, deleteList_nil, allNodesList_nil] at hn
    exact absurd hn (List.not_mem_nil n)
  | cons c rest ih =>
    rw [allNodesList_cons, List.map_append, List.count_append] at hc
    rcases hcx : (c.id == x) with _ | _
    · rw [List.eraseP_cons_of_neg (by simp [hcx]), deleteList_cons, allNodesList_cons]
      intro n hn
      rcases List.mem_append.mp hn with hn | hn
      · exact IH c (List.mem_cons_self _ _) (le_trans (Nat.le_add_right _ _) hc)
          (by simpa using hcx) n hn
      · exact ih (fun c hc => IH c (List.mem_cons_of_mem _ hc))
          (le_trans (Nat.le_add_left _ _) hc) n hn
    · rw [List.eraseP_cons_of_pos (by simp [hcx])]
      have hcid : c.id = x := by simpa using hcx
      have hcpos : 1 ≤ ((allNodes c).map Whatdo.id).count x := by
        have : x ∈ (allNodes c).map Whatdo.id :=
          List.mem_map.mpr ⟨c, self_mem_allNodes c, hcid⟩
        exact Nat.one_le_iff_ne_zero.mpr (by
          intro h0
          rw [List.count_eq_zero] at h0
          exact h0 this)
      have hrest0 : ((allNodesList rest).map Whatdo.id).count x = 0 := by omega
      intro n hn
      obtain ⟨m, hm, he⟩ := nodes_deleteList_aux x rest (fun c _ => nodes_delete x c) n hn
      have hmid : m.id ≠ x := by
        intro hme
        rw [List.count_eq_zero] at hrest0
        exact hrest0 (List.mem_map.mpr ⟨m, hm, hme⟩)
      rw [he, delete_id]
      exact hmid

theorem delete_no_id (x : String) : ∀ wd : Whatdo,
    ((allNodes wd).map Whatdo.id).count x ≤ 1 → wd.id ≠ x →
    ∀ n ∈ allNodes (delete_whatdo wd x), n.id ≠ x := by
  apply whatdo_size_ind
  intro wd IH hc hid n hn
  match wd with
  | .mk i s w q p t b f =>
    match w with
    | none =>
      rw [delete_unfold_none, allNodes_unfold_none] at hn
      rcases List.mem_singleton.mp hn with hn
      rw [hn]
      exact hid
    | some wds =>
      rw [delete_unfold, allNodes_unfold_some] at hn
      rcases List.mem_cons.mp hn with hn | hn
      · rw [hn]; exact hid
      · rw [allNodes_unfold_some, List.map_cons, List.count_cons] at hc
        exact delete_no_id_aux x wds
          (fun c hcm => IH c (sizeOf_mem_whatdos (by rw [whatdosList_unfold]; exact hcm)))
          (by omega) n hn

/-- C3 counterexample: the claim quantifies over every tree and asserts that
delete removes every occurrence of X from every queue (even queues listing X
more than once) and that find then returns None.  Both parts fail:
`delete_whatdo` removes only the first queue occurrence (`position` +
`remove`), so a queue listing "x" twice still contains "x"; and with two
structural children of id "x" only the first is removed, so find still
succeeds. -/
theorem c3_counterexample :
    "x" ∈ (delete_whatdo treeQdup "x").queueList
    ∧ (find_whatdo (delete_whatdo treeCdup "x") "x").isSome = true := by
  constructor
  · rw [delete_queueList]
    decide
  · have h1 : delete_whatdo treeCdup "x" =
        .mk "r" none (some [leafX]) none none none none false := by
      show delete_whatdo (.mk "r" none (some [leafX, leafX]) none none none none false) "x" = _
      rw [delete_unfold]
      have he : ([leafX, leafX].eraseP (fun c => c.id == "x")) = [leafX] := by
        simp [List.eraseP_cons, leafX, Whatdo.id]
      rw [he, deleteList_cons, deleteList_nil]
      have hd : delete_whatdo leafX "x" = leafX := by
        show delete_whatdo (.mk "x" none none none none none none false) "x" = _
        rw [delete_unfold_none]
        rfl
      rw [hd]
      rfl
    rw [h1]
    decide

/-- C3 (amended): for every tree with pairwise-distinct structural ids and
every id x other than the root's, after `delete(tree, x)` a find for x
returns None; every queue of the resulting tree is the corresponding original
queue with its *first* occurrence of x removed; consequently, if no queue
listed x more than once, no queue of the result contains x.  (The original
claim also covered queues listing x twice, which the code does not clean
fully, and arbitrary trees with duplicated structural ids, for which find can
still succeed — see the counterexample.) -/
theorem c3_delete_spec (T : Whatdo) (x : String) (hu : UniqueIds T) (hroot : T.id ≠ x) :
    find_whatdo (delete_whatdo T x) x = none
    ∧ (∀ n ∈ allNodes (delete_whatdo T x), ∃ m, m ∈ allNodes T ∧
        n.queueList = m.queueList.erase x)
    ∧ ((∀ m ∈ allNodes T, m.queueList.count x ≤ 1) →
        ∀ n ∈ allNodes (delete_whatdo T x), x ∉ n.queueList) := by
  have hcount : ((allNodes T).map Whatdo.id).count x ≤ 1 :=
    List.nodup_iff_count_le_one.mp hu x
  have hnoid := delete_no_id x T hcount hroot
  refine ⟨?_, ?_, ?_⟩
  · rw [find_whatdo, findPred_eq_none_iff]
    intro n hn
    simpa using hnoid n hn
  · intro n hn
    obtain ⟨m, hm, he⟩ := nodes_delete x T n hn
    exact ⟨m, hm, by rw [he, delete_queueList]⟩
  · intro hq n hn
    obtain ⟨m, hm, he⟩ := nodes_delete x T n hn
    rw [he, delete_queueList]
    intro hmem
    have h1 : 1 ≤ (m.queueList.erase x).count x := by
      have : 0 < (m.queueList.erase x).count x := List.count_pos_iff.mpr hmem
      omega
    rw [List.count_erase_self] at h1
    have := hq m hm
    omega

/-- C1: the filter built inside `next` is claimed to accept a task iff the
tag filter is empty or the task's tags intersect it (and the priority clause
holds); in particular a task whose tags share no element with a non-empty tag
filter must be rejected.  The code instead tests `is_some()` on the *outer*
option produced by `map`, which holds whenever the task has any `tags` field
at all.  With tag filter ["a"] the task `taskTagsB` (tags = ["b"], no common
element) is accepted by the code's filter while the specified filter rejects
it. -/
theorem c1_tag_filter_bug :
    nextFilter ["a"] [] taskTagsB = true
    ∧ specNextFilter ["a"] [] taskTagsB = false := by
  constructor
  · decide
  · decide

theorem c3_delete_spec_witness :
    UniqueIds treeQ1 ∧ treeQ1.id ≠ "x"
    ∧ (find_whatdo (delete_whatdo treeQ1 "x") "x" = none
        ∧ (∀ n ∈ allNodes (delete_whatdo treeQ1 "x"), ∃ m, m ∈ allNodes treeQ1 ∧
            n.queueList = m.queueList.erase "x")
        ∧ ((∀ m ∈ allNodes treeQ1, m.queueList.count "x" ≤ 1) →
            ∀ n ∈ allNodes (delete_whatdo treeQ1 "x"), "x" ∉ n.queueList)) :=
  ⟨by decide, by decide, c3_delete_spec treeQ1 "x" (by decide) (by decide)⟩

theorem findPredList_eq_some {pr : Whatdo → Bool} {r : Whatdo} :
    ∀ {l : List Whatdo}, findPredList pr l = some r → ∃ c ∈ l, findPred pr c = some r := by
  intro l
  induction l with
  | nil => intro h; rw [findPredList_nil] at h; exact absurd h (by simp)
  | cons c rest ih =>
    intro h
    rcases hc : findPred pr c with _ | r2
    · rw [findPredList_cons_none rest hc] at h
      obtain ⟨c2, hc2, he⟩ := ih h
      exact ⟨c2, List.mem_cons_of_mem _ hc2, he⟩
    · rw [findPredList_cons_some rest hc] at h
      simp only [Option.some.injEq] at h
      exact ⟨c, List.mem_cons_self _ _, by rw [hc, h]⟩

theorem findPred_some_pred {pr : Whatdo → Bool} : ∀ wd : Whatdo, ∀ {r : Whatdo},
    findPred pr wd = some r → pr r = true := by
  apply whatdo_size_ind
  intro wd IH r h
  match wd with
  | .mk i s w q p t b f =>
    match w with
    | none =>
      rw [findPred_unfold_none] at h
      by_cases hpr : pr (.mk i s none q p t b f) = true
      · rw [if_pos hpr] at h
        simp only [Option.some.injEq] at h
        rw [← h]; exact hpr
      · rw [if_neg hpr] at h; exact absurd h (by simp)
    | some wds =>
      rw [findPred_unfold_some] at h
      by_cases hpr : pr (.mk i s (some wds) q p t b f) = true
      · rw [if_pos hpr] at h
        simp only [Option.some.injEq] at h
        rw [← h]; exact hpr
      · rw [if_neg hpr] at h
        obtain ⟨c, hc, he⟩ := findPredList_eq_some h
        exact IH c (sizeOf_mem_whatdos (by rw [whatdosList_unfold]; exact hc)) he

theorem findPred_some_size {pr : Whatdo → Bool} : ∀ wd : Whatdo, ∀ {r : Whatdo},
    findPred pr wd = some r → r = wd ∨ sizeOf r < sizeOf wd := by
  apply whatdo_size_ind
  intro wd IH r h
  match wd with
  | .mk i s w q p t b f =>
    match w with
    | none =>
      rw [findPred_unfold_none] at h
      by_cases hpr : pr (.mk i s none q p t b f) = true
      · rw [if_pos hpr] at h
        simp only [Option.some.injEq] at h
        exact Or.inl h.symm
      · rw [if_neg hpr] at h; exact absurd h (by simp)
    | some wds =>
      rw [findPred_unfold_some] at h
      by_cases hpr : pr (.mk i s (some wds) q p t b f) = true
      · rw [if_pos hpr] at h
        simp only [Option.some.injEq] at h
        exact Or.inl h.symm
      · rw [if_neg hpr] at h
        obtain ⟨c, hc, he⟩ := findPredList_eq_some h
        have hsz : sizeOf c < sizeOf (Whatdo.mk i s (some wds) q p t b f) :=
          sizeOf_mem_whatdos (by rw [whatdosList_unfold]; exact hc)
        rcases IH c hsz he with h2 | h2
        · exact Or.inr (h2 ▸ hsz)
        · exact Or.inr (lt_trans h2 hsz)

theorem findPred_some_mem {pr : Whatdo → Bool} : ∀ wd : Whatdo, ∀ {r : Whatdo},
    findPred pr wd = some r → r ∈ allNodes wd := by
  apply whatdo_size_ind
  intro wd IH r h
  match wd with
  | .mk i s w q p t b f =>
    match w with
    | none =>
      rw [findPred_unfold_none] at h
      by_cases hpr : pr (.mk i s none q p t b f) = true
      · rw [if_pos hpr] at h
        simp only [Option.some.injEq] at h
        rw [← h]; exact self_mem_allNodes _
      · rw [if_neg hpr] at h; exact absurd h (by simp)
    | some wds =>
      rw [findPred_unfold_some] at h
      by_cases hpr : pr (.mk i s (some wds) q p t b f) = true
      · rw [if_pos hpr] at h
        simp only [Option.some.injEq] at h
        rw [← h]; exact self_mem_allNodes _
      · rw [if_neg hpr] at h
        obtain ⟨c, hc, he⟩ := findPredList_eq_some h
        have := IH c (sizeOf_mem_whatdos (by rw [whatdosList_unfold]; exact hc)) he
        rw [allNodes_unfold_some]
        exact List.mem_cons_of_mem _ (mem_allNodesList.mpr ⟨c, hc, this⟩)

theorem allNodes_trans : ∀ wd : Whatdo, ∀ c ∈ allNodes wd, ∀ a ∈ allNodes c,
    a ∈ allNodes wd := by
  apply whatdo_size_ind
  intro wd IH c hc a ha
  match wd with
  | .mk i s w q p t b f =>
    match w with
    | none =>
      rw [allNodes_unfold_none] at hc ⊢
      rcases List.mem_singleton.mp hc with hc
      rw [hc] at ha
      rw [allNodes_unfold_none] at ha
      exact ha
    | some wds =>
      rw [allNodes_unfold_some] at hc ⊢
      rcases List.mem_cons.mp hc with hc | hc
      · rw [hc] at ha; rw [allNodes_unfold_some] at ha; exact ha
      · obtain ⟨ch, hch, hcch⟩ := mem_allNodesList.mp hc
        have := IH ch (sizeOf_mem_whatdos (by rw [whatdosList_unfold]; exact hch)) c hcch a ha
        exact List.mem_cons_of_mem _ (mem_allNodesList.mpr ⟨ch, hch, this⟩)

theorem sortQueueLoop_inv (n : Nat)
    (hS : ∀ wd fl vis anc res vis2, sortFuel n wd fl vis anc = some (res, vis2) →
      (∀ v ∈ vis, v ∈ vis2) ∧ (res.map Whatdo.id).Nodup ∧
      (∀ w ∈ res, w.id ∉ vis) ∧ (∀ w ∈ res, w.id ∈ vis2 ∨ w.id = wd.id)) :
    ∀ q wd fl vis sat res vis2, sortQueueLoop n wd fl q vis sat = some (res, vis2) →
      (∀ v ∈ vis, v ∈ vis2) ∧ (res.map Whatdo.id).Nodup ∧
      (∀ w ∈ res, w.id ∉ vis) ∧ (∀ w ∈ res, w.id ∈ vis2) := by
  intro q
  induction q with
  | nil =>
    intro wd fl vis sat res vis2 h
    simp only [sortQueueLoop, Option.some.injEq, Prod.mk.injEq] at h
    obtain ⟨h1, h2⟩ := h
    subst h1; subst h2
    exact ⟨fun v hv => hv, by simp, by simp, by simp⟩
  | cons id rest ih =>
    intro wd fl vis sat res vis2 h
    by_cases hv : vis.contains id
    · rw [sortQueueLoop, if_pos hv] at h
      exact ih wd fl vis sat res vis2 h
    · rw [sortQueueLoop, if_neg hv] at h
      rcases hf : find_whatdo wd id with _ | qwd
      · simp only [hf] at h
        exact ih wd fl vis sat res vis2 h
      · simp only [hf] at h
        rcases hs : sortFuel n qwd fl vis sat with _ | ⟨r, visA⟩
        · simp only [hs] at h
          exact absurd h (by simp)
        · simp only [hs] at h
          rcases hrec : sortQueueLoop n wd fl rest (id :: visA) sat with _ | ⟨r2, visB⟩
          · simp only [hrec] at h
            exact absurd h (by simp)
          · simp only [hrec, Option.some.injEq, Prod.mk.injEq] at h
            obtain ⟨hres, hvis⟩ := h
            subst hres; subst hvis
            obtain ⟨s1, s2, s3, s4⟩ := hS qwd fl vis sat r visA hs
            obtain ⟨l1, l2, l3, l4⟩ := ih wd fl (id :: visA) sat r2 visB hrec
            have hqid : qwd.id = id := by
              have := findPred_some_pred wd hf
              simpa using this
            have hrsub : ∀ w ∈ r, w.id ∈ (id :: visA) := by
              intro w hw
              rcases s4 w hw with h4 | h4
              · exact List.mem_cons_of_mem _ h4
              · rw [h4, hqid]; exact List.mem_cons_self _ _
            refine ⟨?_, ?_, ?_, ?_⟩
            · intro v hv2
              exact l1 v (List.mem_cons_of_mem _ (s1 v hv2))
            · rw [List.map_append]
              rw [List.nodup_append]
              refine ⟨s2, l2, ?_⟩
              intro a ha hb
              obtain ⟨w, hw, hwe⟩ := List.mem_map.mp ha
              obtain ⟨w2, hw2, hwe2⟩ := List.mem_map.mp hb
              have := l3 w2 hw2
              rw [hwe2] at this
              rw [← hwe] at this
              exact this (hrsub w hw)
            · intro w hw
              rcases List.mem_append.mp hw with hw | hw
              · exact s3 w hw
              · intro hcon
                exact l3 w hw (List.mem_cons_of_mem _ (s1 _ hcon))
            · intro w hw
              rcases List.mem_append.mp hw with hw | hw
              · exact l1 _ (hrsub w hw)
              · exact l4 w hw

theorem sortChildLoop_inv (n : Nat)
    (hS : ∀ wd fl vis anc res vis2, sortFuel n wd fl vis anc = some (res, vis2) →
      (∀ v ∈ vis, v ∈ vis2) ∧ (res.map Whatdo.id).Nodup ∧
      (∀ w ∈ res, w.id ∉ vis) ∧ (∀ w ∈ res, w.id ∈ vis2 ∨ w.id = wd.id)) :
    ∀ l fl vis sat res vis2, sortChildLoop n fl l vis sat = some (res, vis2) →
      (∀ v ∈ vis, v ∈ vis2) ∧ (res.map Whatdo.id).Nodup ∧
      (∀ w ∈ res, w.id ∉ vis) ∧ (∀ w ∈ res, w.id ∈ vis2) := by
  intro l
  induction l with
  | nil =>
    intro fl vis sat res vis2 h
    simp only [sortChildLoop, Option.some.injEq, Prod.mk.injEq] at h
    obtain ⟨h1, h2⟩ := h
    subst h1; subst h2
    exact ⟨fun v hv => hv, by simp, by simp, by simp⟩
  | cons c rest ih =>
    intro fl vis sat res vis2 h
    by_cases hv : vis.contains c.id
    · rw [sortChildLoop, if_pos hv] at h
      exact ih fl vis sat res vis2 h
    · rw [sortChildLoop, if_neg hv] at h
      rcases hs : sortFuel n c fl vis sat with _ | ⟨r, visA⟩
      · simp only [hs] at h
        exact absurd h (by simp)
      · simp only [hs] at h
        rcases hrec : sortChildLoop n fl rest (c.id :: visA) sat with _ | ⟨r2, visB⟩
        · simp only [hrec] at h
          exact absurd h (by simp)
        · simp only [hrec, Option.some.injEq, Prod.mk.injEq] at h
          obtain ⟨hres, hvis⟩ := h
          subst hres; subst hvis
          obtain ⟨s1, s2, s3, s4⟩ := hS c fl vis sat r visA hs
          obtain ⟨l1, l2, l3, l4⟩ := ih fl (c.id :: visA) sat r2 visB hrec
          have hrsub : ∀ w ∈ r, w.id ∈ (c.id :: visA) := by
            intro w hw
            rcases s4 w hw with h4 | h4
            · exact List.mem_cons_of_mem _ h4
            · rw [h4]; exact List.mem_cons_self _ _
          refine ⟨?_, ?_, ?_, ?_⟩
          · intro v hv2
            exact l1 v (List.mem_cons_of_mem _ (s1 v hv2))
          · rw [List.map_append, List.nodup_append]
            refine ⟨s2, l2, ?_⟩
            intro a ha hb
            obtain ⟨w, hw, hwe⟩ := List.mem_map.mp ha
            obtain ⟨w2, hw2, hwe2⟩ := List.mem_map.mp hb
            have := l3 w2 hw2
            rw [hwe2] at this
            rw [← hwe] at this
            exact this (hrsub w hw)
          · intro w hw
            rcases List.mem_append.mp hw with hw | hw
            · exact s3 w hw
            · intro hcon
              exact l3 w hw (List.mem_cons_of_mem _ (s1 _ hcon))
          · intro w hw
            rcases List.mem_append.mp hw with hw | hw
            · exact l1 _ (hrsub w hw)
            · exact l4 w hw

theorem sortFuel_inv : ∀ n : Nat,
    ∀ wd fl vis anc res vis2, sortFuel n wd fl vis anc = some (res, vis2) →
      (∀ v ∈ vis, v ∈ vis2) ∧ (res.map Whatdo.id).Nodup ∧
      (∀ w ∈ res, w.id ∉ vis) ∧ (∀ w ∈ res, w.id ∈ vis2 ∨ w.id = wd.id) := by
  intro n
  induction n with
  | zero =>
    intro wd fl vis anc res vis2 h
    simp [sortFuel] at h
  | succ n ih =>
    intro wd fl vis anc res vis2 h
    rw [sortFuel] at h
    rcases hq : sortQueueLoop n wd fl wd.queueList vis (fl wd || anc) with _ | ⟨rq, vis1⟩
    · simp only [hq] at h
      exact absurd h (by simp)
    · simp only [hq] at h
      obtain ⟨q1, q2, q3, q4⟩ := sortQueueLoop_inv n ih wd.queueList wd fl vis
        (fl wd || anc) rq vis1 hq
      have base : ∀ res2 : List Whatdo,
          (if ((fl wd || anc) && !(vis1.contains wd.id)) = true
            then rq ++ [wd] else rq) = res2 → vis1 = vis2 →
          (∀ v ∈ vis, v ∈ vis2) ∧ (res2.map Whatdo.id).Nodup ∧
          (∀ w ∈ res2, w.id ∉ vis) ∧ (∀ w ∈ res2, w.id ∈ vis2 ∨ w.id = wd.id) := by
        intro res2 hres hvis
        subst hvis
        by_cases hcond : ((fl wd || anc) && !(vis1.contains wd.id)) = true
        · rw [if_pos hcond] at hres
          subst hres
          have hwnot : wd.id ∉ vis1 := by
            simp only [Bool.and_eq_true] at hcond
            obtain ⟨h1c, hc2⟩ := hcond
            simpa [List.contains] using hc2
          refine ⟨q1, ?_, ?_, ?_⟩
          · rw [List.map_append, List.nodup_append]
            refine ⟨q2, by simp, ?_⟩
            intro a ha hb
            obtain ⟨w, hw, hwe⟩ := List.mem_map.mp ha
            simp only [List.map_cons, List.map_nil, List.mem_singleton] at hb
            rw [hb] at hwe
            exact hwnot (hwe ▸ q4 w hw)
          · intro w hw
            rcases List.mem_append.mp hw with hw | hw
            · exact q3 w hw
            · rcases List.mem_singleton.mp hw with hw
              rw [hw]
              intro hcon
              exact hwnot (q1 _ hcon)
          · intro w hw
            rcases List.mem_append.mp hw with hw | hw
            · exact Or.inl (q4 w hw)
            · rcases List.mem_singleton.mp hw with hw
              rw [hw]
              exact Or.inr rfl
        · rw [if_neg hcond] at hres
          subst hres
          exact ⟨q1, q2, q3, fun w hw => Or.inl (q4 w hw)⟩
      rcases hwds : wd.whatdos with _ | l
      · simp only [hwds, Option.some.injEq, Prod.mk.injEq] at h
        obtain ⟨hres, hvis⟩ := h
        exact base res hres hvis
      · simp only [hwds] at h
        by_cases hlen : l.length > 0
        · rw [if_pos hlen] at h
          rcases hc : sortChildLoop n fl (sortChildren l) vis1 (fl wd || anc) with _ | ⟨rc, visC⟩
          · simp only [hc] at h
            exact absurd h (by simp)
          · simp only [hc, Option.some.injEq, Prod.mk.injEq] at h
            obtain ⟨hres, hvis⟩ := h
            subst hres; subst hvis
            obtain ⟨c1, c2, c3, c4⟩ := sortChildLoop_inv n ih (sortChildren l) fl vis1
              (fl wd || anc) rc visC hc
            refine ⟨?_, ?_, ?_, ?_⟩
            · intro v hv
              exact c1 v (q1 v hv)
            · rw [List.map_append, List.nodup_append]
              refine ⟨q2, c2, ?_⟩
              intro a ha hb
              obtain ⟨w, hw, hwe⟩ := List.mem_map.mp ha
              obtain ⟨w2, hw2, hwe2⟩ := List.mem_map.mp hb
              have := c3 w2 hw2
              rw [hwe2, ← hwe] at this
              exact this (q4 w hw)
            · intro w hw
              rcases List.mem_append.mp hw with hw | hw
              · exact q3 w hw
              · intro hcon
                exact c3 w hw (q1 _ hcon)
            · intro w hw
              rcases List.mem_append.mp hw with hw | hw
              · exact Or.inl (c1 _ (q4 w hw))
              · exact Or.inl (c4 w hw)
        · rw [if_neg hlen] at h
          simp only [Option.some.injEq, Prod.mk.injEq] at h
          obtain ⟨hres, hvis⟩ := h
          exact base res hres hvis

/-- C2: for every tree, filter predicate, initial visited set and ancestor
flag, whenever one top-level call of `sort_whatdos` returns (any sufficient
fuel), the returned sequence contains no task id twice: the shared `visited`
set prevents re-emission even when a task is reachable both through a queue
reference and through structural nesting. -/
theorem c2_sort_no_duplicate_ids (n : Nat) (wd : Whatdo) (fl : Whatdo → Bool)
    (vis : List String) (anc : Bool) (res : List Whatdo) (vis2 : List String)
    (h : sortFuel n wd fl vis anc = some (res, vis2)) :
    (res.map Whatdo.id).Nodup :=
  (sortFuel_inv n wd fl vis anc res vis2 h).2.1

theorem c2_sort_no_duplicate_ids_witness :
    sortFuel 1 rootLeaf trueFilter [] false = some ([rootLeaf], [])
    ∧ (([rootLeaf] : List Whatdo).map Whatdo.id).Nodup := by
  have h : sortFuel 1 rootLeaf trueFilter [] false = some ([rootLeaf], []) := by
    show sortFuel (0 + 1) rootLeaf trueFilter [] false = _
    rw [sortFuel]
    simp [sortQueueLoop, rootLeaf, trueFilter, Whatdo.queueList, Whatdo.queue,
      Whatdo.whatdos, Whatdo.id]
  exact ⟨h, c2_sort_no_duplicate_ids 1 rootLeaf trueFilter [] false [rootLeaf] [] h⟩

/-- C7: the order in which `sort_whatdos` visits the children of a node with a
non-empty children list is `sortChildren` of that list (visible in the
definition of `sortFuel`, whose children branch iterates
`sortChildren l`), and `sortChildren` is exactly the stable sort by priority
ascending: it is a permutation of the children, it is sorted so that smaller
priorities come first and children without a priority come after all children
with one, and children with equal priority (or both without priority) keep
their original relative order. -/
theorem c7_children_stable_priority_sort (l : List Whatdo) :
    (sortChildren l).Perm l
    ∧ (sortChildren l).Pairwise (fun a b => priLe a b = true)
    ∧ ∀ o : Option Int,
        (sortChildren l).filter (fun w => w.priority == o) =
          l.filter (fun w => w.priority == o) := by
  have htrans : ∀ a b c : Whatdo, priLe a b = true → priLe b c = true → priLe a c = true := by
    intro a b c hab hbc
    rcases ha : a.priority with _ | pa <;> rcases hb : b.priority with _ | pb <;>
      rcases hcp : c.priority with _ | pc <;>
      simp [priLe, ha, hb, hcp] at hab hbc ⊢ <;> omega
  have htotal : ∀ a b : Whatdo, priLe a b || priLe b a := by
    intro a b
    rcases ha : a.priority with _ | pa <;> rcases hb : b.priority with _ | pb <;>
      simp [priLe, ha, hb] <;> omega
  refine ⟨List.mergeSort_perm l priLe, List.sorted_mergeSort htrans htotal l, ?_⟩
  intro o
  have hperm : ((sortChildren l).filter (fun w => w.priority == o)).Perm
      (l.filter (fun w => w.priority == o)) :=
    (List.mergeSort_perm l priLe).filter _
  have hpair : (l.filter (fun w => w.priority == o)).Pairwise (fun a b => priLe a b = true) := by
    apply List.pairwise_of_forall_mem_list
    intro a ha b hb
    have ha2 := (List.mem_filter.mp ha).2
    have hb2 := (List.mem_filter.mp hb).2
    simp only [beq_iff_eq] at ha2 hb2
    rcases o with _ | v
    · simp [priLe, ha2, hb2]
    · simp [priLe, ha2, hb2]
  have hsub : (l.filter (fun w => w.priority == o)).Sublist (sortChildren l) :=
    List.sublist_mergeSort htrans htotal hpair (List.filter_sublist l)
  have hsub2 : (l.filter (fun w => w.priority == o)).Sublist
      ((sortChildren l).filter (fun w => w.priority == o)) := by
    have h1 := hsub.filter (fun w => w.priority == o)
    rwa [List.filter_eq_self.mpr (fun a ha => (List.mem_filter.mp ha).2)] at h1
  have := hsub2.eq_of_length hperm.length_eq.symm
  exact this.symm

theorem sortQueueLoop_mono (nA nB : Nat)
    (hS : ∀ wd fl vis anc r, sortFuel nA wd fl vis anc = some r →
      sortFuel nB wd fl vis anc = some r) :
    ∀ q wd fl vis sat r, sortQueueLoop nA wd fl q vis sat = some r →
      sortQueueLoop nB wd fl q vis sat = some r := by
  intro q
  induction q with
  | nil =>
    intro wd fl vis sat r h
    simp only [sortQueueLoop] at h ⊢
    exact h
  | cons id rest ih =>
    intro wd fl vis sat r h
    by_cases hv : vis.contains id
    · rw [sortQueueLoop, if_pos hv] at h ⊢
      exact ih wd fl vis sat r h
    · rw [sortQueueLoop, if_neg hv] at h ⊢
      rcases hf : find_whatdo wd id with _ | qwd
      · simp only [hf] at h ⊢
        exact ih wd fl vis sat r h
      · simp only [hf] at h ⊢
        rcases hs : sortFuel nA qwd fl vis sat with _ | ⟨rr, visA⟩
        · simp only [hs] at h
          exact absurd h (by simp)
        · simp only [hs] at h
          simp only [hS qwd fl vis sat (rr, visA) hs]
          rcases hrec : sortQueueLoop nA wd fl rest (id :: visA) sat with _ | r2
          · simp only [hrec] at h
            exact absurd h (by simp)
          · simp only [hrec] at h
            simp only [ih wd fl (id :: visA) sat r2 hrec]
            exact h

theorem sortChildLoop_mono (nA nB : Nat)
    (hS : ∀ wd fl vis anc r, sortFuel nA wd fl vis anc = some r →
      sortFuel nB wd fl vis anc = some r) :
    ∀ l fl vis sat r, sortChildLoop nA fl l vis sat = some r →
      sortChildLoop nB fl l vis sat = some r := by
  intro l
  induction l with
  | nil =>
    intro fl vis sat r h
    simp only [sortChildLoop] at h ⊢
    exact h
  | cons c rest ih =>
    intro fl vis sat r h
    by_cases hv : vis.contains c.id
    · rw [sortChildLoop, if_pos hv] at h ⊢
      exact ih fl vis sat r h
    · rw [sortChildLoop, if_neg hv] at h ⊢
      rcases hs : sortFuel nA c fl vis sat with _ | ⟨rr, visA⟩
      · simp only [hs] at h
        exact absurd h (by simp)
      · simp only [hs] at h
        simp only [hS c fl vis sat (rr, visA) hs]
        rcases hrec : sortChildLoop nA fl rest (c.id :: visA) sat with _ | r2
        · simp only [hrec] at h
          exact absurd h (by simp)
        · simp only [hrec] at h
          simp only [ih fl (c.id :: visA) sat r2 hrec]
          exact h

theorem sortFuel_mono : ∀ n n2 : Nat, n ≤ n2 → ∀ wd fl vis anc r,
    sortFuel n wd fl vis anc = some r → sortFuel n2 wd fl vis anc = some r := by
  intro n
  induction n with
  | zero =>
    intro n2 _ wd fl vis anc r h
    simp [sortFuel] at h
  | succ n ih =>
    intro n2 h12 wd fl vis anc r h
    match n2, h12 with
    | m + 1, h12 =>
      have hnm : n ≤ m := Nat.le_of_succ_le_succ h12
      have hS := ih m hnm
      rw [sortFuel] at h ⊢
      rcases hq : sortQueueLoop n wd fl wd.queueList vis (fl wd || anc) with _ | ⟨rq, vis1⟩
      · simp only [hq] at h
        exact absurd h (by simp)
      · simp only [hq] at h
        simp only [sortQueueLoop_mono n m hS wd.queueList wd fl vis (fl wd || anc) (rq, vis1) hq]
        rcases hwds : wd.whatdos with _ | l
        · simp only [hwds] at h ⊢
          exact h
        · simp only [hwds] at h ⊢
          by_cases hlen : l.length > 0
          · rw [if_pos hlen] at h ⊢
            rcases hc : sortChildLoop n fl (sortChildren l) vis1 (fl wd || anc) with _ | rc
            · simp only [hc] at h
              exact absurd h (by simp)
            · simp only [hc] at h
              simp only [sortChildLoop_mono n m hS (sortChildren l) fl vis1 (fl wd || anc) rc hc]
              exact h
          · rw [if_neg hlen] at h ⊢
            exact h

theorem mem_children_allNodes {c wd : Whatdo} (h : c ∈ wd.whatdosList) : c ∈ allNodes wd := by
  match wd with
  | .mk i s w q p t b f =>
    match w with
    | none => simp [Whatdo.whatdosList, Whatdo.whatdos] at h
    | some wds =>
      rw [whatdosList_unfold] at h
      rw [allNodes_unfold_some]
      exact List.mem_cons_of_mem _ (mem_allNodesList.mpr ⟨c, h, self_mem_allNodes c⟩)

theorem sortFuel_selfQueue_none : ∀ n, sortFuel n selfQueueWd trueFilter [] true = none := by
  intro n
  induction n with
  | zero => simp [sortFuel]
  | succ n ih =>
    rw [sortFuel]
    have hsat : (trueFilter selfQueueWd || true) = true := rfl
    have hql : selfQueueWd.queueList = ["s"] := rfl
    rw [hsat, hql]
    have hq : sortQueueLoop n selfQueueWd trueFilter ["s"] [] true = none := by
      rw [sortQueueLoop, if_neg (by decide : ¬ (([] : List String).contains "s" = true))]
      have hf : find_whatdo selfQueueWd "s" = some selfQueueWd := rfl
      simp only [hf, ih]
    rw [hq]

/-- C10 counterexample: the claim asserts termination of `sort_whatdos` on
every finite tree, including one whose node's queue references the node's own
id.  On `selfQueueWd` (id "s", queue ["s"]) the queue id resolves, within the
node's own subtree, to the node itself, `visited` is not updated before the
recursive call, and the recursion re-enters the same state forever: the
embedding returns `none` at every fuel. -/
theorem c10_counterexample : ¬ SortTerminates selfQueueWd trueFilter [] true := by
  rintro ⟨n, res, h⟩
  rw [sortFuel_selfQueue_none n] at h
  exact absurd h (by simp)

theorem sortQueueLoop_total (m : Nat) (wd : Whatdo) (fl : Whatdo → Bool) (sat : Bool) :
    ∀ q : List String,
      (∀ id ∈ q, ∀ qwd, find_whatdo wd id = some qwd →
        ∀ vis2, ∃ r, sortFuel m qwd fl vis2 sat = some r) →
      ∀ vis, ∃ r, sortQueueLoop m wd fl q vis sat = some r := by
  intro q
  induction q with
  | nil => exact fun _ vis => ⟨([], vis), by simp [sortQueueLoop]⟩
  | cons id rest ih =>
    intro hT vis
    by_cases hv : vis.contains id
    · obtain ⟨r, hr⟩ := ih (fun i hi => hT i (List.mem_cons_of_mem _ hi)) vis
      exact ⟨r, by rw [sortQueueLoop, if_pos hv]; exact hr⟩
    · rcases hf : find_whatdo wd id with _ | qwd
      · obtain ⟨r, hr⟩ := ih (fun i hi => hT i (List.mem_cons_of_mem _ hi)) vis
        exact ⟨r, by rw [sortQueueLoop, if_neg hv]; simp only [hf]; exact hr⟩
      · obtain ⟨⟨rr, visA⟩, hs⟩ := hT id (List.mem_cons_self _ _) qwd hf vis
        obtain ⟨⟨r2, visB⟩, hr2⟩ := ih (fun i hi => hT i (List.mem_cons_of_mem _ hi)) (id :: visA)
        refine ⟨(rr ++ r2, visB), ?_⟩
        rw [sortQueueLoop, if_neg hv]
        simp only [hf, hs, hr2]

theorem sortChildLoop_total (m : Nat) (fl : Whatdo → Bool) (sat : Bool) :
    ∀ l : List Whatdo,
      (∀ c ∈ l, ∀ vis2, ∃ r, sortFuel m c fl vis2 sat = some r) →
      ∀ vis, ∃ r, sortChildLoop m fl l vis sat = some r := by
  intro l
  induction l with
  | nil => exact fun _ vis => ⟨([], vis), by simp [sortChildLoop]⟩
  | cons c rest ih =>
    intro hT vis
    by_cases hv : vis.contains c.id
    · obtain ⟨r, hr⟩ := ih (fun i hi => hT i (List.mem_cons_of_mem _ hi)) vis
      exact ⟨r, by rw [sortChildLoop, if_pos hv]; exact hr⟩
    · obtain ⟨⟨rr, visA⟩, hs⟩ := hT c (List.mem_cons_self _ _) vis
      obtain ⟨⟨r2, visB⟩, hr2⟩ := ih (fun i hi => hT i (List.mem_cons_of_mem _ hi)) (c.id :: visA)
      refine ⟨(rr ++ r2, visB), ?_⟩
      rw [sortChildLoop, if_neg hv]
      simp only [hs, hr2]

/-- C10 (amended): `sort_whatdos` terminates on every finite tree in which no
node's queue lists the node's own id (for any filter, any initial visited set
and either ancestor flag); fuel `sizeOf T` always suffices because every
recursive call then targets a strict subterm.  The original claim also
covered trees whose queue references the node's own id; on those the
recursion re-enters the same node with `visited` unchanged and never returns
(see the counterexample). -/
theorem c10_sort_terminates_when_self_queue_free : ∀ T : Whatdo, SelfQueueFree T →
    ∀ fl vis anc, ∃ res, sortFuel (sizeOf T) T fl vis anc = some res := by
  apply whatdo_size_ind
  intro wd IH hfree fl vis anc
  have hpos : 0 < sizeOf wd := by
    match wd with
    | .mk i s w q p t b f => simp only [Whatdo.mk.sizeOf_spec]; omega
  obtain ⟨m, hm⟩ : ∃ m, sizeOf wd = m + 1 := ⟨sizeOf wd - 1, by omega⟩
  rw [hm, sortFuel]
  have hqt : ∃ r, sortQueueLoop m wd fl wd.queueList vis (fl wd || anc) = some r := by
    apply sortQueueLoop_total
    · intro id hid qwd hf vis2
      have hqid : qwd.id = id := by simpa using findPred_some_pred wd hf
      have hne : qwd ≠ wd := by
        intro he
        refine hfree wd (self_mem_allNodes wd) ?_
        rw [← hqid, he] at hid
        exact hid
      have hsz : sizeOf qwd < sizeOf wd := by
        rcases findPred_some_size wd hf with h | h
        · exact absurd h hne
        · exact h
      have hfree2 : SelfQueueFree qwd := fun n hn =>
        hfree n (allNodes_trans wd qwd (findPred_some_mem wd hf) n hn)
      obtain ⟨r, hr⟩ := IH qwd hsz hfree2 fl vis2 (fl wd || anc)
      exact ⟨r, sortFuel_mono (sizeOf qwd) m (by omega) qwd fl vis2 (fl wd || anc) r hr⟩
  obtain ⟨⟨rq, vis1⟩, hq⟩ := hqt
  simp only [hq]
  rcases hwds : wd.whatdos with _ | l
  · exact ⟨_, rfl⟩
  · dsimp only
    by_cases hlen : l.length > 0
    · rw [if_pos hlen]
      have hct : ∃ r, sortChildLoop m fl (sortChildren l) vis1 (fl wd || anc) = some r := by
        apply sortChildLoop_total
        · intro c hc vis2
          have hcl : c ∈ l := by
            rw [sortChildren] at hc
            exact List.mem_mergeSort.mp hc
          have hmem : c ∈ wd.whatdosList := by
            match wd with
            | .mk i s w q p t b f =>
              simp only [Whatdo.whatdos] at hwds
              rw [hwds, whatdosList_unfold]
              exact hcl
          have hsz : sizeOf c < sizeOf wd := sizeOf_mem_whatdos hmem
          have hfree2 : SelfQueueFree c := fun n hn =>
            hfree n (allNodes_trans wd c (mem_children_allNodes hmem) n hn)
          obtain ⟨r, hr⟩ := IH c hsz hfree2 fl vis2 (fl wd || anc)
          exact ⟨r, sortFuel_mono (sizeOf c) m (by omega) c fl vis2 (fl wd || anc) r hr⟩
      obtain ⟨⟨rc, visC⟩, hc⟩ := hct
      simp only [hc]
      exact ⟨_, rfl⟩
    · rw [if_neg hlen]
      exact ⟨_, rfl⟩

theorem c10_sort_terminates_witness :
    SelfQueueFree treeQ1
    ∧ ∃ res, sortFuel (sizeOf treeQ1) treeQ1 trueFilter [] false = some res :=
  ⟨by decide, c10_sort_terminates_when_self_queue_free treeQ1 (by decide) trueFilter [] false⟩

theorem sortQueueLoop_leaves (n : Nat)
    (hS : ∀ wd fl vis anc res vis2, sortFuel n wd fl vis anc = some (res, vis2) →
      ∀ w ∈ res, w.whatdos = none ∨ w.whatdos = some []) :
    ∀ q wd fl vis sat res vis2, sortQueueLoop n wd fl q vis sat = some (res, vis2) →
      ∀ w ∈ res, w.whatdos = none ∨ w.whatdos = some [] := by
  intro q
  induction q with
  | nil =>
    intro wd fl vis sat res vis2 h
    simp only [sortQueueLoop, Option.some.injEq, Prod.mk.injEq] at h
    obtain ⟨h1, _⟩ := h
    subst h1
    simp
  | cons id rest ih =>
    intro wd fl vis sat res vis2 h
    by_cases hv : vis.contains id
    · rw [sortQueueLoop, if_pos hv] at h
      exact ih wd fl vis sat res vis2 h
    · rw [sortQueueLoop, if_neg hv] at h
      rcases hf : find_whatdo wd id with _ | qwd
      · simp only [hf] at h
        exact ih wd fl vis sat res vis2 h
      · simp only [hf] at h
        rcases hs : sortFuel n qwd fl vis sat with _ | ⟨r, visA⟩
        · simp only [hs] at h
          exact absurd h (by simp)
        · simp only [hs] at h
          rcases hrec : sortQueueLoop n wd fl rest (id :: visA) sat with _ | ⟨r2, visB⟩
          · simp only [hrec] at h
            exact absurd h (by simp)
          · simp only [hrec, Option.some.injEq, Prod.mk.injEq] at h
            obtain ⟨hres, _⟩ := h
            subst hres
            intro w hw
            rcases List.mem_append.mp hw with hw | hw
            · exact hS qwd fl vis sat r visA hs w hw
            · exact ih wd fl (id :: visA) sat r2 visB hrec w hw

theorem sortChildLoop_leaves (n : Nat)
    (hS : ∀ wd fl vis anc res vis2, sortFuel n wd fl vis anc = some (res, vis2) →
      ∀ w ∈ res, w.whatdos = none ∨ w.whatdos = some []) :
    ∀ l fl vis sat res vis2, sortChildLoop n fl l vis sat = some (res, vis2) →
      ∀ w ∈ res, w.whatdos = none ∨ w.whatdos = some [] := by
  intro l
  induction l with
  | nil =>
    intro fl vis sat res vis2 h
    simp only [sortChildLoop, Option.some.injEq, Prod.mk.injEq] at h
    obtain ⟨h1, _⟩ := h
    subst h1
    simp
  | cons c rest ih =>
    intro fl vis sat res vis2 h
    by_cases hv : vis.contains c.id
    · rw [sortChildLoop, if_pos hv] at h
      exact ih fl vis sat res vis2 h
    · rw [sortChildLoop, if_neg hv] at h
      rcases hs : sortFuel n c fl vis sat with _ | ⟨r, visA⟩
      · simp only [hs] at h
        exact absurd h (by simp)
      · simp only [hs] at h
        rcases hrec : sortChildLoop n fl rest (c.id :: visA) sat with _ | ⟨r2, visB⟩
        · simp only [hrec] at h
          exact absurd h (by simp)
        · simp only [hrec, Option.some.injEq, Prod.mk.injEq] at h
          obtain ⟨hres, _⟩ := h
          subst hres
          intro w hw
          rcases List.mem_append.mp hw with hw | hw
          · exact hS c fl vis sat r visA hs w hw
          · exact ih fl (c.id :: visA) sat r2 visB hrec w hw

theorem sortFuel_leaves : ∀ n : Nat,
    ∀ wd fl vis anc res vis2, sortFuel n wd fl vis anc = some (res, vis2) →
      ∀ w ∈ res, w.whatdos = none ∨ w.whatdos = some [] := by
  intro n
  induction n with
  | zero =>
    intro wd fl vis anc res vis2 h
    simp [sortFuel] at h
  | succ n ih =>
    intro wd fl vis anc res vis2 h
    rw [sortFuel] at h
    rcases hq : sortQueueLoop n wd fl wd.queueList vis (fl wd || anc) with _ | ⟨rq, vis1⟩
    · simp only [hq] at h
      exact absurd h (by simp)
    · simp only [hq] at h
      have hqleaf := sortQueueLoop_leaves n ih wd.queueList wd fl vis (fl wd || anc) rq vis1 hq
      have base : ∀ res2 : List Whatdo,
          (if ((fl wd || anc) && !(vis1.contains wd.id)) = true
            then rq ++ [wd] else rq) = res2 →
          (wd.whatdos = none ∨ wd.whatdos = some []) →
          ∀ w ∈ res2, w.whatdos = none ∨ w.whatdos = some [] := by
        intro res2 hres hleaf
        by_cases hcond : ((fl wd || anc) && !(vis1.contains wd.id)) = true
        · rw [if_pos hcond] at hres
          subst hres
          intro w hw
          rcases List.mem_append.mp hw with hw | hw
          · exact hqleaf w hw
          · rcases List.mem_singleton.mp hw with hw
            rw [hw]
            exact hleaf
        · rw [if_neg hcond] at hres
          subst hres
          exact hqleaf
      rcases hwds : wd.whatdos with _ | l
      · simp only [hwds, Option.some.injEq, Prod.mk.injEq] at h
        obtain ⟨hres, _⟩ := h
        exact base res hres (Or.inl hwds)
      · simp only [hwds] at h
        by_cases hlen : l.length > 0
        · rw [if_pos hlen] at h
          rcases hc : sortChildLoop n fl (sortChildren l) vis1 (fl wd || anc) with _ | ⟨rc, visC⟩
          · simp only [hc] at h
            exact absurd h (by simp)
          · simp only [hc, Option.some.injEq, Prod.mk.injEq] at h
            obtain ⟨hres, _⟩ := h
            subst hres
            intro w hw
            rcases List.mem_append.mp hw with hw | hw
            · exact hqleaf w hw
            · exact sortChildLoop_leaves n ih (sortChildren l) fl vis1 (fl wd || anc)
                rc visC hc w hw
        · rw [if_neg hlen] at h
          simp only [Option.some.injEq, Prod.mk.injEq] at h
          obtain ⟨hres, _⟩ := h
          have hl : l = [] := by
            rcases l with _ | ⟨a, l⟩
            · rfl
            · exact absurd (by simp : (a :: l).length > 0) hlen
          exact base res hres (Or.inr (by rw [hwds, hl]))

theorem flushLines_lineId {buf : List String} {level : Nat} :
    ∀ line ∈ flushLines buf level, line.lineId ∈ buf := by
  intro line hl
  obtain ⟨p, hp, he⟩ := List.mem_map.mp hl
  rw [← he]
  show p.2 ∈ buf
  have := List.mem_enum_iff_getElem?.mp hp
  exact List.getElem?_mem this

theorem fmtRec_eq_root (fl : Whatdo → Bool) (tr : Bool) (rootId : String) (wd : Whatdo)
    (buf : List String) (level : Nat) (anc : Bool) (h : ¬ wd.id ≠ rootId)
    (A : List RLine × List String)
    (hA : fmtRecList fl tr rootId wd.whatdosList buf (level + 1)
      (fl wd || (tr && anc)) = A) :
    fmtRec fl tr rootId wd buf level anc =
      (A.1, if A.2.getLast? = some wd.id then A.2.dropLast else A.2) := by
  rw [fmtRec]
  dsimp only
  rw [if_neg h, hA]
  simp

theorem fmtRec_eq_full (fl : Whatdo → Bool) (tr : Bool) (rootId : String) (wd : Whatdo)
    (buf : List String) (level : Nat) (anc : Bool) (h : wd.id ≠ rootId)
    (hsat : fl wd = true)
    (A : List RLine × List String)
    (hA : fmtRecList fl tr rootId wd.whatdosList [] (level + 1) true = A) :
    fmtRec fl tr rootId wd buf level anc =
      ((flushLines buf level ++ [RLine.full wd (level - 1)]) ++ A.1,
       if A.2.getLast? = some wd.id then A.2.dropLast else A.2) := by
  have htrans : (fl wd || (tr && anc)) = true := by simp [hsat]
  rw [fmtRec]
  dsimp only
  simp [h, hsat, htrans, hA]

theorem fmtRec_eq_dim (fl : Whatdo → Bool) (tr : Bool) (rootId : String) (wd : Whatdo)
    (buf : List String) (level : Nat) (anc : Bool) (h : wd.id ≠ rootId)
    (hsat : fl wd = false) (htra : (tr && anc) = true)
    (A : List RLine × List String)
    (hA : fmtRecList fl tr rootId wd.whatdosList [] (level + 1) true = A) :
    fmtRec fl tr rootId wd buf level anc =
      ((flushLines buf level ++ [RLine.dim wd.id (level - 1)]) ++ A.1,
       if A.2.getLast? = some wd.id then A.2.dropLast else A.2) := by
  have htrans : (fl wd || (tr && anc)) = true := by simp [hsat, htra]
  rw [fmtRec]
  dsimp only
  simp [h, hsat, htra, hA]

theorem fmtRec_eq_push (fl : Whatdo → Bool) (tr : Bool) (rootId : String) (wd : Whatdo)
    (buf : List String) (level : Nat) (anc : Bool) (h : wd.id ≠ rootId)
    (hsat : fl wd = false) (htra : (tr && anc) = false)
    (A : List RLine × List String)
    (hA : fmtRecList fl tr rootId wd.whatdosList (buf ++ [wd.id]) (level + 1) false = A) :
    fmtRec fl tr rootId wd buf level anc =
      (A.1, if A.2.getLast? = some wd.id then A.2.dropLast else A.2) := by
  have htrans : (fl wd || (tr && anc)) = false := by simp [hsat, htra]
  have hcond : ¬ (tr = true ∧ anc = true) := by
    rintro ⟨ht1, ht2⟩
    rw [ht1, ht2] at htra
    exact absurd htra (by simp)
  rw [fmtRec]
  dsimp only
  simp [h, hsat, hcond, htra, hA]

theorem fmtRecList_nil (fl : Whatdo → Bool) (tr : Bool) (rootId : String)
    (buf : List String) (level : Nat) (anc : Bool) :
    fmtRecList fl tr rootId [] buf level anc = ([], buf) := by
  rw [fmtRecList]

theorem fmtRecList_cons (fl : Whatdo → Bool) (tr : Bool) (rootId : String)
    (c : Whatdo) (rest : List Whatdo) (buf : List String) (level : Nat) (anc : Bool)
    (A B : List RLine × List String)
    (hA : fmtRec fl tr rootId c buf level anc = A)
    (hB : fmtRecList fl tr rootId rest A.2 level anc = B) :
    fmtRecList fl tr rootId (c :: rest) buf level anc = (A.1 ++ B.1, B.2) := by
  rw [fmtRecList]
  rw [hA, hB]

theorem fmtRecList_no_root_aux (fl : Whatdo → Bool) (tr : Bool) (rootId : String)
    (l : List Whatdo)
    (IH : ∀ c ∈ l, ∀ buf level anc, (∀ s ∈ buf, s ≠ rootId) →
      (∀ line ∈ (fmtRec fl tr rootId c buf level anc).1, line.lineId ≠ rootId)
      ∧ (∀ s ∈ (fmtRec fl tr rootId c buf level anc).2, s ≠ rootId)) :
    ∀ buf level anc, (∀ s ∈ buf, s ≠ rootId) →
      (∀ line ∈ (fmtRecList fl tr rootId l buf level anc).1, line.lineId ≠ rootId)
      ∧ (∀ s ∈ (fmtRecList fl tr rootId l buf level anc).2, s ≠ rootId) := by
  induction l with
  | nil =>
    intro buf level anc hbuf
    rw [fmtRecList_nil]
    exact ⟨by simp, hbuf⟩
  | cons c rest ih =>
    intro buf level anc hbuf
    obtain ⟨hA1, hA2⟩ := IH c (List.mem_cons_self _ _) buf level anc hbuf
    obtain ⟨hB1, hB2⟩ := ih (fun c hc => IH c (List.mem_cons_of_mem _ hc))
      (fmtRec fl tr rootId c buf level anc).2 level anc hA2
    rw [fmtRecList_cons fl tr rootId c rest buf level anc _ _ rfl rfl]
    refine ⟨?_, hB2⟩
    intro line hl
    rcases List.mem_append.mp hl with hl | hl
    · exact hA1 line hl
    · exact hB1 line hl

theorem fmtRec_no_root (fl : Whatdo → Bool) (tr : Bool) (rootId : String) :
    ∀ wd : Whatdo, ∀ buf level anc, (∀ s ∈ buf, s ≠ rootId) →
      (∀ line ∈ (fmtRec fl tr rootId wd buf level anc).1, line.lineId ≠ rootId)
      ∧ (∀ s ∈ (fmtRec fl tr rootId wd buf level anc).2, s ≠ rootId) := by
  apply whatdo_size_ind
  intro wd IH buf level anc hbuf
  have haux := fmtRecList_no_root_aux fl tr rootId wd.whatdosList
    (fun c hc => IH c (sizeOf_mem_whatdos hc))
  have hpop : ∀ b : List String, (∀ s ∈ b, s ≠ rootId) →
      ∀ s ∈ (if b.getLast? = some wd.id then b.dropLast else b), s ≠ rootId := by
    intro b hb s hs
    by_cases hl : b.getLast? = some wd.id
    · rw [if_pos hl] at hs
      exact hb s ((List.dropLast_sublist b).subset hs)
    · rw [if_neg hl] at hs
      exact hb s hs
  by_cases hroot : wd.id ≠ rootId
  · by_cases hsat : fl wd = true
    · rw [fmtRec_eq_full fl tr rootId wd buf level anc hroot hsat _ rfl]
      obtain ⟨h1, h2⟩ := haux [] (level + 1) true (by simp)
      refine ⟨?_, hpop _ h2⟩
      intro line hl
      rcases List.mem_append.mp hl with hl | hl
      · rcases List.mem_append.mp hl with hl | hl
        · exact hbuf _ (flushLines_lineId line hl)
        · rcases List.mem_singleton.mp hl with hl
          rw [hl]
          exact hroot
      · exact h1 line hl
    · have hsatf : fl wd = false := by
        rcases hfl : fl wd with _ | _
        · rfl
        · exact absurd hfl hsat
      rcases htra : (tr && anc) with _ | _
      · rw [fmtRec_eq_push fl tr rootId wd buf level anc hroot hsatf htra _ rfl]
        have hbuf2 : ∀ s ∈ buf ++ [wd.id], s ≠ rootId := by
          intro s hs
          rcases List.mem_append.mp hs with hs | hs
          · exact hbuf s hs
          · rcases List.mem_singleton.mp hs with hs
            rw [hs]
            exact hroot
        obtain ⟨h1, h2⟩ := haux (buf ++ [wd.id]) (level + 1) false hbuf2
        exact ⟨h1, hpop _ h2⟩
      · rw [fmtRec_eq_dim fl tr rootId wd buf level anc hroot hsatf htra _ rfl]
        obtain ⟨h1, h2⟩ := haux [] (level + 1) true (by simp)
        refine ⟨?_, hpop _ h2⟩
        intro line hl
        rcases List.mem_append.mp hl with hl | hl
        · rcases List.mem_append.mp hl with hl | hl
          · exact hbuf _ (flushLines_lineId line hl)
          · rcases List.mem_singleton.mp hl with hl
            rw [hl]
            exact hroot
        · exact h1 line hl
  · rw [fmtRec_eq_root fl tr rootId wd buf level anc hroot _ rfl]
    obtain ⟨h1, h2⟩ := haux buf (level + 1) (fl wd || (tr && anc)) hbuf
    exact ⟨h1, hpop _ h2⟩

/-- C8 counterexample: the claim asserts the root never appears in the
sequence returned by `next` (nor in a sort started at the root), for every
tree.  A childless root is itself a leaf: `sort_whatdos` reaches its base
case and emits it, and `next` returns it. -/
theorem c8_counterexample :
    nextModel 1 rootLeaf none NextAmount.all [] [] = some [rootLeaf]
    ∧ rootLeaf ∈ [rootLeaf] := by
  refine ⟨?_, List.mem_singleton_self _⟩
  have h : sortFuel 1 rootLeaf (nextFilter [] []) [] false = some ([rootLeaf], []) := by
    show sortFuel (0 + 1) rootLeaf (nextFilter [] []) [] false = _
    rw [sortFuel]
    simp [sortQueueLoop, rootLeaf, nextFilter, Whatdo.queueList, Whatdo.queue,
      Whatdo.whatdos, Whatdo.id]
  rw [nextModel]
  simp only [h]
  rfl

/-- C8 (amended): for every tree whose root has a non-empty children list,
the root task never appears in the sequence returned by the `next` policy nor
in the result of a `sort_whatdos` call started at the root (whenever those
calls return); and, unconditionally, the tree view never prints a line
labelled with the root's id.  (A childless root is itself a leaf, reaches the
base case of `sort_whatdos`, and is emitted when it passes the filter — see
the counterexample.) -/
theorem c8_root_never_emitted :
    (∀ n root fl vis anc res vis2 l, Whatdo.whatdos root = some l → l ≠ [] →
        sortFuel n root fl vis anc = some (res, vis2) → root ∉ res)
    ∧ (∀ fuel root cur amount tags priorities res l, Whatdo.whatdos root = some l → l ≠ [] →
        nextModel fuel root cur amount tags priorities = some res → root ∉ res)
    ∧ (∀ root fl tr, ∀ line ∈ renderModel fl tr root, RLine.lineId line ≠ root.id) := by
  have hleaf : ∀ n root fl vis anc res vis2 l, Whatdo.whatdos root = some l → l ≠ [] →
      sortFuel n root fl vis anc = some (res, vis2) → root ∉ res := by
    intro n root fl vis anc res vis2 l hw hl h hmem
    rcases sortFuel_leaves n root fl vis anc res vis2 h root hmem with h2 | h2
    · rw [hw] at h2
      exact absurd h2 (by simp)
    · rw [hw] at h2
      simp only [Option.some.injEq] at h2
      exact hl h2
  refine ⟨hleaf, ?_, ?_⟩
  · intro fuel root cur amount tags priorities res l hw hl h hmem
    have hmemTake : ∀ ll : List Whatdo, res = nextTake amount ll → root ∈ ll := by
      intro ll hres
      rcases amount with _ | k
      · rw [hres] at hmem
        exact hmem
      · rw [hres] at hmem
        exact List.take_subset k ll hmem
    rw [nextModel.eq_def] at h
    rcases cur with _ | c
    · dsimp only at h
      rcases hs : sortFuel fuel root (nextFilter tags priorities) [] false with _ | ⟨r2, v2⟩
      · simp only [hs] at h
        exact absurd h (by simp)
      · simp only [hs, Option.some.injEq] at h
        exact hleaf fuel root (nextFilter tags priorities) [] false r2 v2 l hw hl hs
          (hmemTake r2 h.symm)
    · dsimp only at h
      rcases hs1 : sortFuel fuel c (nextFilter tags priorities) [c.id] false with _ | ⟨r1, v1⟩
      · simp only [hs1] at h
        exact absurd h (by simp)
      · simp only [hs1] at h
        rcases hs2 : sortFuel fuel root (nextFilter tags priorities) v1 false with _ | ⟨r2, v2⟩
        · simp only [hs2] at h
          exact absurd h (by simp)
        · simp only [hs2, Option.some.injEq] at h
          have hin := hmemTake (r1 ++ r2) h.symm
          rcases List.mem_append.mp hin with hin | hin
          · rcases sortFuel_leaves fuel c (nextFilter tags priorities) [c.id] false r1 v1
              hs1 root hin with h2 | h2
            · rw [hw] at h2
              exact absurd h2 (by simp)
            · rw [hw] at h2
              simp only [Option.some.injEq] at h2
              exact hl h2
          · exact hleaf fuel root (nextFilter tags priorities) v1 false r2 v2 l hw hl hs2 hin
  · intro root fl tr line hl
    exact (fmtRec_no_root fl tr root.id root [] 0 false (by simp)).1 line hl

theorem c8_root_never_emitted_witness :
    Whatdo.whatdos treeQ1 = some [leafX] ∧ ([leafX] : List Whatdo) ≠ []
    ∧ sortFuel 2 treeQ1 trueFilter [] false = some ([leafX], ["x"])
    ∧ treeQ1 ∉ ([leafX] : List Whatdo) := by
  have hEval : sortFuel 2 treeQ1 trueFilter [] false = some ([leafX], ["x"]) := by
    have h1 : sortFuel 1 leafX trueFilter [] (trueFilter treeQ1 || false) = some ([leafX], []) := by
      show sortFuel (0 + 1) leafX trueFilter [] (trueFilter treeQ1 || false) = _
      rw [sortFuel]
      simp [sortQueueLoop, leafX, trueFilter, Whatdo.queueList, Whatdo.queue,
        Whatdo.whatdos, Whatdo.id]
    have hq : sortQueueLoop 1 treeQ1 trueFilter treeQ1.queueList []
        (trueFilter treeQ1 || false) = some ([leafX], ["x"]) := by
      have hql : treeQ1.queueList = ["x"] := rfl
      rw [hql, sortQueueLoop, if_neg (by decide : ¬ (([] : List String).contains "x" = true))]
      have hf : find_whatdo treeQ1 "x" = some leafX := rfl
      simp only [hf, h1]
      simp [sortQueueLoop]
    show sortFuel (1 + 1) treeQ1 trueFilter [] false = _
    rw [sortFuel]
    simp only [hq]
    have hw : Whatdo.whatdos treeQ1 = some [leafX] := rfl
    simp only [hw]
    rw [if_pos (by decide : ([leafX] : List Whatdo).length > 0)]
    have hsc : sortChildren [leafX] = [leafX] := by simp [sortChildren]
    rw [hsc]
    have hcl : sortChildLoop 1 trueFilter [leafX] ["x"] (trueFilter treeQ1 || false) =
        some ([], ["x"]) := by
      rw [sortChildLoop, if_pos (by decide : ((["x"] : List String).contains leafX.id) = true)]
      simp [sortChildLoop]
    simp only [hcl]
    simp
  refine ⟨rfl, by simp, hEval, ?_⟩
  have hnot := c8_root_never_emitted.1 2 treeQ1 trueFilter [] false [leafX] ["x"] [leafX]
    rfl (by simp) hEval
  exact hnot

theorem mapGet_nil (k : String) : mapGet [] k = none := rfl

theorem mapGet_cons (kk vv : Yaml) (rest : List (Yaml × Yaml)) (k : String) :
    mapGet ((kk, vv) :: rest) k =
      if kk.isStr k = true then some vv else mapGet rest k := by
  rcases h : kk.isStr k with _ | _
  · simp [mapGet, List.find?_cons, h]
  · simp [mapGet, List.find?_cons, h]

theorem isStr_yamlStrEq (ka : Yaml) (k : String) :
    Yaml.isStr ka k = yamlStrEq ka (Yaml.str k) := by
  cases ka <;> rfl

theorem mapGet_mapInsert (m : List (Yaml × Yaml)) (k : String) (v : Yaml) (k2 : String) :
    mapGet (mapInsert m (.str k) v) k2 = if k2 = k then some v else mapGet m k2 := by
  induction m with
  | nil =>
    by_cases h : k2 = k
    · subst h
      simp [mapInsert, mapGet, List.find?_cons, Yaml.isStr]
    · have hbe : (k == k2) = false := by
        simp only [beq_eq_false_iff_ne]
        exact fun he => h he.symm
      simp [mapInsert, mapGet, List.find?_cons, Yaml.isStr, hbe, h]
  | cons pr rest ih =>
    obtain ⟨ka, va⟩ := pr
    by_cases hke : yamlStrEq ka (Yaml.str k) = true
    · have hka : ka = Yaml.str k := by
        cases ka <;> simp_all [yamlStrEq]
      subst hka
      rw [show mapInsert ((Yaml.str k, va) :: rest) (Yaml.str k) v = (Yaml.str k, v) :: rest
        from by simp [mapInsert, yamlStrEq]]
      by_cases h2 : k2 = k
      · subst h2
        simp [mapGet_cons, Yaml.isStr]
      · have hbe : (k == k2) = false := by
          simp only [beq_eq_false_iff_ne]
          exact fun he => h2 he.symm
        simp [mapGet_cons, Yaml.isStr, hbe, h2]
    · rw [show mapInsert ((ka, va) :: rest) (Yaml.str k) v =
        (ka, va) :: mapInsert rest (Yaml.str k) v from by simp [mapInsert, hke]]
      rw [mapGet_cons, mapGet_cons, ih]
      by_cases h2 : k2 = k
      · subst h2
        have hstr : Yaml.isStr ka k2 = false := by
          rw [isStr_yamlStrEq]
          simp only [Bool.not_eq_true] at hke
          exact hke
        simp [hstr]
      · rcases hstr : Yaml.isStr ka k2 with _ | _
        · simp [h2]
        · simp [h2]

theorem serializeFields_get (wd : Whatdo) :
    mapGet (serializeFields wd) "summary" = wd.summary.map Yaml.str
    ∧ mapGet (serializeFields wd) "priority" = wd.priority.map Yaml.int
    ∧ mapGet (serializeFields wd) "branch_name" = wd.branch_name.map Yaml.str
    ∧ mapGet (serializeFields wd) "tags" =
        wd.tags.map (fun tags => Yaml.seq (tags.map Yaml.str))
    ∧ mapGet (serializeFields wd) "queue" =
        wd.queue.map (fun q => Yaml.seq (q.map Yaml.str))
    ∧ mapGet (serializeFields wd) "whatdos" =
        wd.whatdos.map (fun wds => Yaml.map (serializeChildrenAux [] wds)) := by
  rw [serializeFields]
  rcases h1 : wd.summary with _ | s <;>
    rcases h2 : wd.priority with _ | p <;>
    rcases h3 : wd.branch_name with _ | b <;>
    rcases h4 : wd.tags with _ | tg <;>
    rcases h5 : wd.queue with _ | q <;>
    rcases h6 : wd.whatdos with _ | wds <;>
    simp [mapGet_mapInsert, mapGet_nil]

theorem serialize_simple_some (wd : Whatdo) (s : String) (h : wd.simple_format = true)
    (hs : wd.summary = some s) : serialize_whatdo wd = (.str wd.id, .str s) := by
  rw [serialize_whatdo]
  simp [h, hs]

theorem serialize_simple_none (wd : Whatdo) (h : wd.simple_format = true)
    (hs : wd.summary = none) : serialize_whatdo wd = (.str wd.id, .map []) := by
  rw [serialize_whatdo]
  simp [h, hs]

theorem serialize_full (wd : Whatdo) (h : wd.simple_format = false) :
    serialize_whatdo wd = (.str wd.id, .map (serializeFields wd)) := by
  rw [serialize_whatdo]
  simp [h]

/-- C6 counterexample: the claim says the shorthand string form is produced
only when the task has a summary and no other optional field set, and in
particular never when `branch_name` is set.  `simple_format()` does not
inspect `branch_name`, so the hand-built task `wdC6` (terse flag, summary
"s", branch_name "b") serializes to the shorthand string, dropping the
branch name. -/
theorem c6_counterexample :
    (serialize_whatdo wdC6).2 = Yaml.str "s" ∧ wdC6.branch_name = some "b" := by
  constructor
  · rw [serialize_simple_some wdC6 "s" rfl rfl]
  · rfl

/-- C6 (amended): serialization produces the shorthand string form exactly
when the terse flag is set, queue, children, priority and tags are all
absent (the `simple_format()` check), and a summary is present; the check
inspects neither `summary` beyond this nor `branch_name`, so a hand-built
task with the terse flag, a summary and a branch name serializes shorthand
with the branch name dropped (see the counterexample) — for tasks produced
by the parser this cannot arise, since the parser sets the terse flag only
on the plain-string form.  When `simple_format()` is false the full mapping
form is produced, each optional field present exactly when set. -/
theorem c6_shorthand_iff (wd : Whatdo) :
    ((∃ s, (serialize_whatdo wd).2 = Yaml.str s) ↔
      (wd.simple_format = true ∧ wd.summary.isSome = true))
    ∧ (wd.simple_format = false →
        (serialize_whatdo wd).2 = Yaml.map (serializeFields wd)
        ∧ mapGet (serializeFields wd) "summary" = wd.summary.map Yaml.str
        ∧ mapGet (serializeFields wd) "priority" = wd.priority.map Yaml.int
        ∧ mapGet (serializeFields wd) "branch_name" = wd.branch_name.map Yaml.str
        ∧ mapGet (serializeFields wd) "tags" =
            wd.tags.map (fun tags => Yaml.seq (tags.map Yaml.str))
        ∧ mapGet (serializeFields wd) "queue" =
            wd.queue.map (fun q => Yaml.seq (q.map Yaml.str))
        ∧ mapGet (serializeFields wd) "whatdos" =
            wd.whatdos.map (fun wds => Yaml.map (serializeChildrenAux [] wds))) := by
  constructor
  · constructor
    · rintro ⟨s, hs⟩
      rcases hf : wd.simple_format with _ | _
      · rw [serialize_full wd hf] at hs
        exact absurd hs (by simp)
      · rcases hsum : wd.summary with _ | s2
        · rw [serialize_simple_none wd hf hsum] at hs
          exact absurd hs (by simp)
        · exact ⟨rfl, by rfl⟩
    · rintro ⟨hf, hs⟩
      rcases hsum : wd.summary with _ | s2
      · rw [hsum] at hs
        exact absurd hs (by simp)
      · exact ⟨s2, by rw [serialize_simple_some wd s2 hf hsum]⟩
  · intro hf
    obtain ⟨g1, g2, g3, g4, g5, g6⟩ := serializeFields_get wd
    exact ⟨by rw [serialize_full wd hf], g1, g2, g3, g4, g5, g6⟩

theorem c6_shorthand_iff_witness :
    wdC6b.simple_format = false
    ∧ ((serialize_whatdo wdC6b).2 = Yaml.map (serializeFields wdC6b)
        ∧ mapGet (serializeFields wdC6b) "summary" = wdC6b.summary.map Yaml.str
        ∧ mapGet (serializeFields wdC6b) "priority" = wdC6b.priority.map Yaml.int
        ∧ mapGet (serializeFields wdC6b) "branch_name" = wdC6b.branch_name.map Yaml.str
        ∧ mapGet (serializeFields wdC6b) "tags" =
            wdC6b.tags.map (fun tags => Yaml.seq (tags.map Yaml.str))
        ∧ mapGet (serializeFields wdC6b) "queue" =
            wdC6b.queue.map (fun q => Yaml.seq (q.map Yaml.str))
        ∧ mapGet (serializeFields wdC6b) "whatdos" =
            wdC6b.whatdos.map (fun wds => Yaml.map (serializeChildrenAux [] wds))) :=
  ⟨rfl, (c6_shorthand_iff wdC6b).2 rfl⟩

theorem yaml_size_ind {P : Yaml → Prop}
    (h : ∀ v, (∀ w : Yaml, sizeOf w < sizeOf v → P w) → P v) : ∀ v, P v :=
  fun v => h v (fun w _ => yaml_size_ind h w)
termination_by v => sizeOf v
decreasing_by assumption

theorem keysOkPairs_mem {d : List (Yaml × Yaml)} {kk vv : Yaml}
    (h : keysOkPairs d = true) (hm : (kk, vv) ∈ d) : keysOk vv = true := by
  induction d with
  | nil => exact absurd hm (List.not_mem_nil _)
  | cons p rest ih =>
    obtain ⟨ka, va⟩ := p
    rw [keysOkPairs] at h
    simp only [Bool.and_eq_true] at h
    obtain ⟨⟨_, hva⟩, hrest⟩ := h
    rcases List.mem_cons.mp hm with hm | hm
    · rcases hm with hm
      injection hm with h1 h2
      rw [h2]
      exact hva
    · exact ih hrest hm

theorem mapGet_mem {m : List (Yaml × Yaml)} {k : String} {v : Yaml}
    (h : mapGet m k = some v) : ∃ kk, (kk, v) ∈ m := by
  rw [mapGet] at h
  rcases hf : m.find? (fun p => p.1.isStr k) with _ | p
  · rw [hf] at h
    exact absurd h (by simp)
  · rw [hf] at h
    simp at h
    obtain ⟨kk, vv⟩ := p
    have hv : vv = v := h
    subst hv
    exact ⟨kk, List.mem_of_find?_eq_some hf⟩

theorem parse_queue_roundtrip : ∀ (l : List Yaml) (q : List String),
    parse_queue_sequence l = .ok q →
    parse_queue_sequence (q.map Yaml.str) = .ok q := by
  intro l
  induction l with
  | nil =>
    intro q h
    rw [parse_queue_sequence] at h
    simp only [Except.ok.injEq] at h
    subst h
    rw [List.map_nil, parse_queue_sequence]
  | cons v rest ih =>
    intro q h
    cases v with
    | str s =>
      rw [parse_queue_sequence] at h
      rcases hvalid : valid_id s with _ | _
      · rw [if_neg (by simp [hvalid])] at h
        exact absurd h (by simp)
      · rw [if_pos hvalid] at h
        rcases hrec : parse_queue_sequence rest with e | r
        · rw [hrec] at h
          exact absurd h (by simp)
        · rw [hrec] at h
          simp only [Except.ok.injEq] at h
          subst h
          rw [List.map_cons, parse_queue_sequence, if_pos hvalid, ih r hrec]
    | int i => exact absurd h (by simp [parse_queue_sequence])
    | bool b => exact absurd h (by simp [parse_queue_sequence])
    | null => exact absurd h (by simp [parse_queue_sequence])
    | seq l => exact absurd h (by simp [parse_queue_sequence])
    | map m => exact absurd h (by simp [parse_queue_sequence])

theorem parse_tags_roundtrip : ∀ (l : List Yaml) (q : List String),
    parse_tags_sequence l = .ok q →
    parse_tags_sequence (q.map Yaml.str) = .ok q := by
  intro l
  induction l with
  | nil =>
    intro q h
    rw [parse_tags_sequence] at h
    simp only [Except.ok.injEq] at h
    subst h
    rw [List.map_nil, parse_tags_sequence]
  | cons v rest ih =>
    intro q h
    cases v with
    | str s =>
      rw [parse_tags_sequence] at h
      rcases hvalid : valid_tag s with _ | _
      · rw [if_neg (by simp [hvalid])] at h
        exact absurd h (by simp)
      · rw [if_pos hvalid] at h
        rcases hrec : parse_tags_sequence rest with e | r
        · rw [hrec] at h
          exact absurd h (by simp)
        · rw [hrec] at h
          simp only [Except.ok.injEq] at h
          subst h
          rw [List.map_cons, parse_tags_sequence, if_pos hvalid, ih r hrec]
    | int i => exact absurd h (by simp [parse_tags_sequence])
    | bool b => exact absurd h (by simp [parse_tags_sequence])
    | null => exact absurd h (by simp [parse_tags_sequence])
    | seq l => exact absurd h (by simp [parse_tags_sequence])
    | map m => exact absurd h (by simp [parse_tags_sequence])

theorem serialize_fst (wd : Whatdo) : (serialize_whatdo wd).1 = .str wd.id := by
  rcases hf : wd.simple_format with _ | _
  · rw [serialize_full wd hf]
  · rcases hs : wd.summary with _ | s
    · rw [serialize_simple_none wd hf hs]
    · rw [serialize_simple_some wd s hf hs]

theorem mapInsert_fresh : ∀ (m : List (Yaml × Yaml)) (k : String) (v : Yaml),
    mapGet m k = none → mapInsert m (.str k) v = m ++ [(.str k, v)] := by
  intro m
  induction m with
  | nil => intro k v _; rw [mapInsert, List.nil_append]
  | cons p rest ih =>
    intro k v h
    obtain ⟨ka, va⟩ := p
    rw [mapGet_cons] at h
    rcases hstr : Yaml.isStr ka k with _ | _
    · rw [if_neg (by simp [hstr])] at h
      rw [mapInsert, if_neg (by rw [← isStr_yamlStrEq, hstr]; simp), ih k v h,
        List.cons_append]
    · rw [if_pos (by rw [hstr])] at h
      exact absurd h (by simp)

theorem serializeChildrenAux_nil (acc : List (Yaml × Yaml)) :
    serializeChildrenAux acc [] = acc := by
  rw [serializeChildrenAux]

theorem serializeChildrenAux_cons (acc : List (Yaml × Yaml)) (sub : Whatdo)
    (rest : List Whatdo) :
    serializeChildrenAux acc (sub :: rest) =
      serializeChildrenAux
        (mapInsert acc (serialize_whatdo sub).1 (serialize_whatdo sub).2) rest := by
  rcases hsv : serialize_whatdo sub with ⟨k, v⟩
  rw [serializeChildrenAux, hsv]

theorem serializeChildrenAux_eq : ∀ (l : List Whatdo) (acc : List (Yaml × Yaml)),
    (∀ sub ∈ l, mapGet acc sub.id = none) →
    (l.map Whatdo.id).Nodup →
    serializeChildrenAux acc l = acc ++ l.map serialize_whatdo := by
  intro l
  induction l with
  | nil => intro acc _ _; rw [serializeChildrenAux_nil, List.map_nil, List.append_nil]
  | cons sub rest ih =>
    intro acc hfresh hnodup
    rw [serializeChildrenAux_cons, serialize_fst,
      mapInsert_fresh acc sub.id (serialize_whatdo sub).2
        (hfresh sub (List.mem_cons_self _ _))]
    rw [List.map_cons, List.nodup_cons] at hnodup
    have hfresh2 : ∀ s2 ∈ rest, mapGet (acc ++ [(.str sub.id, (serialize_whatdo sub).2)]) s2.id = none := by
      intro s2 hs2
      have h1 : mapGet acc s2.id = none := hfresh s2 (List.mem_cons_of_mem _ hs2)
      have hne : s2.id ≠ sub.id := by
        intro he
        exact hnodup.1 (he ▸ List.mem_map_of_mem Whatdo.id hs2)
      rw [show (acc ++ [(Yaml.str sub.id, (serialize_whatdo sub).2)]) =
        mapInsert acc (.str sub.id) (serialize_whatdo sub).2 from
        (mapInsert_fresh acc sub.id _ (hfresh sub (List.mem_cons_self _ _))).symm]
      rw [mapGet_mapInsert, if_neg hne, h1]
    rw [ih _ hfresh2 hnodup.2, List.map_cons, List.append_assoc, List.singleton_append,
      show (Yaml.str sub.id, (serialize_whatdo sub).2) = serialize_whatdo sub from by
        rw [← serialize_fst]]

theorem nodupB_nodup : ∀ {l : List String}, nodupB l = true → l.Nodup := by
  intro l
  induction l with
  | nil => intro _; exact List.nodup_nil
  | cons s rest ih =>
    intro h
    rw [nodupB] at h
    simp only [Bool.and_eq_true, Bool.not_eq_true'] at h
    refine List.nodup_cons.mpr ⟨?_, ih h.2⟩
    intro hmem
    have : rest.contains s = true := List.elem_eq_true_of_mem hmem
    rw [h.1] at this
    exact Bool.noConfusion this

theorem getPriority_fits {items : List (Yaml × Yaml)} {priority : Option Int}
    (h : getPriority items = .ok priority) :
    ∀ p, priority = some p → fitsI64 p = true := by
  intro p hp
  subst hp
  rw [getPriority] at h
  rcases hm : mapGet items "priority" with _ | v
  · simp only [hm] at h
    exact absurd h (by simp)
  · rcases v with s | n | b | _ | l | mm
    · simp only [hm] at h
      exact absurd h (by simp)
    · simp only [hm] at h
      rcases hf : fitsI64 n with _ | _
      · rw [if_neg (by simp [hf])] at h
        exact absurd h (by simp)
      · rw [if_pos hf] at h
        simp only [Except.ok.injEq, Option.some.injEq] at h
        rw [← h]
        exact hf
    · simp only [hm] at h
      exact absurd h (by simp)
    · simp only [hm] at h
      exact absurd h (by simp)
    · simp only [hm] at h
      exact absurd h (by simp)
    · simp only [hm] at h
      exact absurd h (by simp)

theorem getSummary_of (items : List (Yaml × Yaml)) (x : Option String)
    (h : mapGet items "summary" = x.map Yaml.str) : getSummary items = .ok x := by
  rcases x with _ | s <;> simp [getSummary, h]

theorem getBranchName_of (items : List (Yaml × Yaml)) (x : Option String)
    (h : mapGet items "branch_name" = x.map Yaml.str) : getBranchName items = .ok x := by
  rcases x with _ | s <;> simp [getBranchName, h]

theorem getQueueRaw_of (items : List (Yaml × Yaml)) (x : Option (List String))
    (h : mapGet items "queue" = x.map (fun q => Yaml.seq (q.map Yaml.str))) :
    getQueueRaw items = .ok (x.map (fun q => q.map Yaml.str)) := by
  rcases x with _ | q <;> simp [getQueueRaw, h]

theorem getTagsRaw_of (items : List (Yaml × Yaml)) (x : Option (List String))
    (h : mapGet items "tags" = x.map (fun tg => Yaml.seq (tg.map Yaml.str))) :
    getTagsRaw items = .ok (x.map (fun tg => tg.map Yaml.str)) := by
  rcases x with _ | tg <;> simp [getTagsRaw, h]

theorem getPriority_of (items : List (Yaml × Yaml)) (x : Option Int)
    (h : mapGet items "priority" = x.map Yaml.int)
    (hf : ∀ p, x = some p → fitsI64 p = true) : getPriority items = .ok x := by
  rcases x with _ | p
  · simp [getPriority, h]
  · simp [getPriority, h, hf p rfl]

theorem parse_rest_props {items : List (Yaml × Yaml)} {id : String}
    {summary : Option String} {children : Option (List Whatdo)} {t : Whatdo}
    (h : parse_whatdo_rest items id summary children = .ok t) :
    ∃ queue priority tags branch,
      t = .mk id summary children queue priority tags branch false
      ∧ (∀ q, queue = some q → parse_queue_sequence (q.map Yaml.str) = .ok q)
      ∧ (∀ tg, tags = some tg → parse_tags_sequence (tg.map Yaml.str) = .ok tg)
      ∧ (∀ p, priority = some p → fitsI64 p = true) := by
  rw [parse_whatdo_rest] at h
  rcases hq : getQueueRaw items with e | queueRaw
  · simp only [hq] at h
    exact Except.noConfusion h
  · simp only [hq] at h
    rcases hp : getPriority items with e | priority
    · simp only [hp] at h
      exact Except.noConfusion h
    · simp only [hp] at h
      rcases ht : getTagsRaw items with e | tagsRaw
      · simp only [ht] at h
        exact Except.noConfusion h
      · simp only [ht] at h
        rcases hb : getBranchName items with e | branch
        · simp only [hb] at h
          exact Except.noConfusion h
        · simp only [hb] at h
          rcases queueRaw with _ | qraw
          · rcases tagsRaw with _ | traw
            · dsimp only at h
              simp only [Except.ok.injEq] at h
              exact ⟨none, priority, none, branch, h.symm,
                fun q hq' => Option.noConfusion hq',
                fun tg ht' => Option.noConfusion ht',
                getPriority_fits hp⟩
            · dsimp only at h
              rcases hpt : parse_tags_sequence traw with e | tg
              · simp only [hpt] at h
                exact Except.noConfusion h
              · simp only [hpt] at h
                simp only [Except.ok.injEq] at h
                refine ⟨none, priority, some tg, branch, h.symm,
                  fun q hq' => Option.noConfusion hq', ?_, getPriority_fits hp⟩
                intro tg2 ht'
                simp only [Option.some.injEq] at ht'
                rw [← ht']
                exact parse_tags_roundtrip traw tg hpt
          · rcases hpq : parse_queue_sequence qraw with e | q
            · dsimp only at h
              simp only [hpq] at h
              exact Except.noConfusion h
            · dsimp only at h
              simp only [hpq] at h
              rcases tagsRaw with _ | traw
              · dsimp only at h
                simp only [Except.ok.injEq] at h
                refine ⟨some q, priority, none, branch, h.symm, ?_,
                  fun tg ht' => Option.noConfusion ht', getPriority_fits hp⟩
                intro q2 hq'
                simp only [Option.some.injEq] at hq'
                rw [← hq']
                exact parse_queue_roundtrip qraw q hpq
              · dsimp only at h
                rcases hpt : parse_tags_sequence traw with e | tg
                · simp only [hpt] at h
                  exact Except.noConfusion h
                · simp only [hpt] at h
                  simp only [Except.ok.injEq] at h
                  refine ⟨some q, priority, some tg, branch, h.symm, ?_, ?_,
                    getPriority_fits hp⟩
                  · intro q2 hq'
                    simp only [Option.some.injEq] at hq'
                    rw [← hq']
                    exact parse_queue_roundtrip qraw q hpq
                  · intro tg2 ht'
                    simp only [Option.some.injEq] at ht'
                    rw [← ht']
                    exact parse_tags_roundtrip traw tg hpt

theorem parse_rest_reparse (items2 : List (Yaml × Yaml)) (id : String)
    (summary : Option String) (children : Option (List Whatdo))
    (queue : Option (List String)) (priority : Option Int)
    (tags : Option (List String)) (branch : Option String)
    (hq : mapGet items2 "queue" = queue.map (fun q => Yaml.seq (q.map Yaml.str)))
    (hpri : mapGet items2 "priority" = priority.map Yaml.int)
    (htg : mapGet items2 "tags" = tags.map (fun tg => Yaml.seq (tg.map Yaml.str)))
    (hb : mapGet items2 "branch_name" = branch.map Yaml.str)
    (hqp : ∀ q, queue = some q → parse_queue_sequence (q.map Yaml.str) = .ok q)
    (htp : ∀ tg, tags = some tg → parse_tags_sequence (tg.map Yaml.str) = .ok tg)
    (hpf : ∀ p, priority = some p → fitsI64 p = true) :
    parse_whatdo_rest items2 id summary children =
      .ok (.mk id summary children queue priority tags branch false) := by
  rw [parse_whatdo_rest, getQueueRaw_of items2 queue hq,
    getPriority_of items2 priority hpri hpf, getTagsRaw_of items2 tags htg,
    getBranchName_of items2 branch hb]
  rcases queue with _ | q
  · rcases tags with _ | tg
    · simp
    · simp [htp tg rfl]
  · rcases tags with _ | tg
    · simp [hqp q rfl]
    · simp [hqp q rfl, htp tg rfl]

theorem parse_whatdo_unfold_nosummary {items : List (Yaml × Yaml)} {id : String}
    {e : String} (hs : getSummary items = .error e) :
    parse_whatdo id (.map items) = .error e := by
  rw [parse_whatdo]
  simp only [hs]

theorem parse_whatdo_unfold_none {items : List (Yaml × Yaml)} {id : String}
    {summary : Option String}
    (hs : getSummary items = .ok summary)
    (hw : mapGet items "whatdos" = none) :
    parse_whatdo id (.map items) = parse_whatdo_rest items id summary none := by
  rw [parse_whatdo]
  simp only [hs]
  split
  · rename_i d heq
    rw [hw] at heq
    exact Option.noConfusion heq
  · rename_i v heq hne
    rw [hw] at hne
    exact Option.noConfusion hne
  · rfl

theorem parse_whatdo_unfold_badchildren {items : List (Yaml × Yaml)} {id : String}
    {summary : Option String} {v : Yaml}
    (hs : getSummary items = .ok summary)
    (hw : mapGet items "whatdos" = some v)
    (hv : ∀ d, v = .map d → False) :
    parse_whatdo id (.map items) = .error "Expected 'whatdos' to be a mapping" := by
  rw [parse_whatdo]
  simp only [hs]
  split
  · rename_i d heq
    rw [hw] at heq
    simp only [Option.some.injEq] at heq
    exact (hv d heq).elim
  · rfl
  · rename_i heq
    rw [hw] at heq
    exact Option.noConfusion heq

theorem parse_whatdo_unfold_children_error {items : List (Yaml × Yaml)} {id : String}
    {summary : Option String} {d : List (Yaml × Yaml)} {e : String}
    (hs : getSummary items = .ok summary)
    (hw : mapGet items "whatdos" = some (.map d))
    (hpm : parse_whatdo_map d = .error e) :
    parse_whatdo id (.map items) = .error e := by
  rw [parse_whatdo]
  simp only [hs]
  split
  · rename_i d2 heq
    rw [hw] at heq
    simp only [Option.some.injEq, Yaml.map.injEq] at heq
    subst heq
    rw [hpm]
  · rename_i v heq hne
    rw [hw] at hne
    simp only [Option.some.injEq] at hne
    exact (heq d hne.symm).elim
  · rename_i heq
    rw [hw] at heq
    exact Option.noConfusion heq

theorem parse_whatdo_unfold_children {items : List (Yaml × Yaml)} {id : String}
    {summary : Option String} {d : List (Yaml × Yaml)} {children : List Whatdo}
    (hs : getSummary items = .ok summary)
    (hw : mapGet items "whatdos" = some (.map d))
    (hpm : parse_whatdo_map d = .ok children) :
    parse_whatdo id (.map items) = parse_whatdo_rest items id summary (some children) := by
  rw [parse_whatdo]
  simp only [hs]
  split
  · rename_i d2 heq
    rw [hw] at heq
    simp only [Option.some.injEq, Yaml.map.injEq] at heq
    subst heq
    rw [hpm]
  · rename_i v heq hne
    rw [hw] at hne
    simp only [Option.some.injEq] at hne
    exact (heq d hne.symm).elim
  · rename_i heq
    rw [hw] at heq
    exact Option.noConfusion heq

theorem parse_whatdo_id {id : String} {data : Yaml} {t : Whatdo}
    (h : parse_whatdo id data = .ok t) : t.id = id := by
  cases data with
  | str s =>
    rw [parse_whatdo] at h
    simp only [Except.ok.injEq] at h
    rw [← h]
    rfl
  | map items =>
    rcases hs : getSummary items with e | summary
    · rw [parse_whatdo_unfold_nosummary hs] at h
      exact Except.noConfusion h
    · rcases hw : mapGet items "whatdos" with _ | v
      · rw [parse_whatdo_unfold_none hs hw] at h
        obtain ⟨qu, pr, tg, br, ht, _⟩ := parse_rest_props h
        rw [ht]
        rfl
      · rcases v with s2 | n2 | b2 | _ | l2 | d
        · rw [parse_whatdo_unfold_badchildren hs hw (fun d hd => Yaml.noConfusion hd)] at h
          exact Except.noConfusion h
        · rw [parse_whatdo_unfold_badchildren hs hw (fun d hd => Yaml.noConfusion hd)] at h
          exact Except.noConfusion h
        · rw [parse_whatdo_unfold_badchildren hs hw (fun d hd => Yaml.noConfusion hd)] at h
          exact Except.noConfusion h
        · rw [parse_whatdo_unfold_badchildren hs hw (fun d hd => Yaml.noConfusion hd)] at h
          exact Except.noConfusion h
        · rw [parse_whatdo_unfold_badchildren hs hw (fun d hd => Yaml.noConfusion hd)] at h
          exact Except.noConfusion h
        · rcases hpm : parse_whatdo_map d with e | children
          · rw [parse_whatdo_unfold_children_error hs hw hpm] at h
            exact Except.noConfusion h
          · rw [parse_whatdo_unfold_children hs hw hpm] at h
            obtain ⟨qu, pr, tg, br, ht, _⟩ := parse_rest_props h
            rw [ht]
            rfl
  | int n =>
    rw [parse_whatdo.eq_def] at h
    simp at h
  | bool b =>
    rw [parse_whatdo.eq_def] at h
    simp at h
  | null =>
    rw [parse_whatdo.eq_def] at h
    simp at h
  | seq l =>
    rw [parse_whatdo.eq_def] at h
    simp at h

theorem parse_map_props : ∀ (d : List (Yaml × Yaml)) (l : List Whatdo),
    parse_whatdo_map d = .ok l →
    l.map Whatdo.id = strKeys d
    ∧ ∀ wd ∈ l, valid_id wd.id = true
        ∧ ∃ vv, (Yaml.str wd.id, vv) ∈ d ∧ parse_whatdo wd.id vv = .ok wd := by
  intro d
  induction d with
  | nil =>
    intro l h
    rw [parse_whatdo_map] at h
    simp only [Except.ok.injEq] at h
    subst h
    exact ⟨rfl, fun wd hw => absurd hw (List.not_mem_nil wd)⟩
  | cons p rest ih =>
    intro l h
    obtain ⟨k, v⟩ := p
    cases k with
    | str s =>
      rw [parse_whatdo_map] at h
      rcases hv : valid_id s with _ | _
      · rw [if_neg (by simp [hv])] at h
        exact Except.noConfusion h
      · rw [if_pos hv] at h
        rcases hpw : parse_whatdo s v with e | wd
        · simp only [hpw] at h
          exact Except.noConfusion h
        · simp only [hpw] at h
          rcases hpm : parse_whatdo_map rest with e | wds
          · simp only [hpm] at h
            exact Except.noConfusion h
          · simp only [hpm] at h
            simp only [Except.ok.injEq] at h
            subst h
            obtain ⟨hkeys, hmem⟩ := ih wds hpm
            have hid : wd.id = s := parse_whatdo_id hpw
            constructor
            · rw [List.map_cons, hkeys, hid]
              rfl
            · intro wd2 hw2
              rcases List.mem_cons.mp hw2 with he | hm
              · subst he
                refine ⟨by rw [hid]; exact hv, v, ?_, ?_⟩
                · rw [hid]
                  exact List.mem_cons_self _ _
                · rw [hid]
                  exact hpw
              · obtain ⟨hv2, vv, hvm, hp2⟩ := hmem wd2 hm
                exact ⟨hv2, vv, List.mem_cons_of_mem _ hvm, hp2⟩
    | int n => rw [parse_whatdo_map] at h; exact Except.noConfusion h; exact fun t ht2 => Yaml.noConfusion ht2
    | bool b => rw [parse_whatdo_map] at h; exact Except.noConfusion h; exact fun t ht2 => Yaml.noConfusion ht2
    | null => rw [parse_whatdo_map] at h; exact Except.noConfusion h; exact fun t ht2 => Yaml.noConfusion ht2
    | seq l2 => rw [parse_whatdo_map] at h; exact Except.noConfusion h; exact fun t ht2 => Yaml.noConfusion ht2
    | map m2 => rw [parse_whatdo_map] at h; exact Except.noConfusion h; exact fun t ht2 => Yaml.noConfusion ht2

theorem parse_map_reparse : ∀ (l : List Whatdo),
    (∀ wd ∈ l, valid_id wd.id = true
      ∧ parse_whatdo wd.id (serialize_whatdo wd).2 = .ok wd) →
    parse_whatdo_map (l.map serialize_whatdo) = .ok l := by
  intro l
  induction l with
  | nil => intro _; rw [List.map_nil, parse_whatdo_map]
  | cons wd rest ih =>
    intro hall
    obtain ⟨hv, hp⟩ := hall wd (List.mem_cons_self _ _)
    rw [List.map_cons,
      show serialize_whatdo wd = (Yaml.str wd.id, (serialize_whatdo wd).2) from by
        rw [← serialize_fst],
      parse_whatdo_map, if_pos hv]
    simp only [hp, ih (fun w hw => hall w (List.mem_cons_of_mem _ hw))]

/-- The heart of the round-trip: a tree parsed from a well-keyed document
serializes back to a value that parses to the same tree. -/
theorem parse_serialize_reparse : ∀ (doc : Yaml), keysOk doc = true →
    ∀ (id : String) (t : Whatdo), parse_whatdo id doc = .ok t →
    parse_whatdo id (serialize_whatdo t).2 = .ok t := by
  apply yaml_size_ind
  intro doc IH hkeys id t hp
  cases doc with
  | str s =>
    rw [parse_whatdo] at hp
    simp only [Except.ok.injEq] at hp
    rw [← hp, serialize_simple_some (Whatdo.simple id (some s)) s rfl rfl]
    dsimp only
    rw [parse_whatdo]
  | map items =>
    have hko : nodupB (strKeys items) = true ∧ keysOkPairs items = true := by
      simp only [keysOk, Bool.and_eq_true] at hkeys
      exact hkeys
    rcases hsum : getSummary items with e | summary
    · rw [parse_whatdo_unfold_nosummary hsum] at hp
      exact Except.noConfusion hp
    · rcases hw : mapGet items "whatdos" with _ | v
      · rw [parse_whatdo_unfold_none hsum hw] at hp
        obtain ⟨queue, priority, tags, branch, ht, hqrt, htrt, hprt⟩ :=
          parse_rest_props hp
        subst ht
        rw [serialize_full (.mk id summary none queue priority tags branch false) rfl]
        dsimp only
        obtain ⟨g1, g2, g3, g4, g5, g6⟩ := serializeFields_get
          (.mk id summary none queue priority tags branch false)
        have hgs : getSummary (serializeFields
            (.mk id summary none queue priority tags branch false)) = .ok summary :=
          getSummary_of _ summary g1
        have hg6 : mapGet (serializeFields
            (.mk id summary none queue priority tags branch false)) "whatdos" = none := by
          rw [g6]
          rfl
        rw [parse_whatdo_unfold_none hgs hg6]
        exact parse_rest_reparse _ id summary none queue priority tags branch
          g5 g2 g4 g3 hqrt htrt hprt
      · rcases v with s2 | n2 | b2 | _ | l2 | d
        · rw [parse_whatdo_unfold_badchildren hsum hw (fun d hd => Yaml.noConfusion hd)] at hp
          exact Except.noConfusion hp
        · rw [parse_whatdo_unfold_badchildren hsum hw (fun d hd => Yaml.noConfusion hd)] at hp
          exact Except.noConfusion hp
        · rw [parse_whatdo_unfold_badchildren hsum hw (fun d hd => Yaml.noConfusion hd)] at hp
          exact Except.noConfusion hp
        · rw [parse_whatdo_unfold_badchildren hsum hw (fun d hd => Yaml.noConfusion hd)] at hp
          exact Except.noConfusion hp
        · rw [parse_whatdo_unfold_badchildren hsum hw (fun d hd => Yaml.noConfusion hd)] at hp
          exact Except.noConfusion hp
        · rcases hpm : parse_whatdo_map d with e | children
          · rw [parse_whatdo_unfold_children_error hsum hw hpm] at hp
            exact Except.noConfusion hp
          · rw [parse_whatdo_unfold_children hsum hw hpm] at hp
            obtain ⟨queue, priority, tags, branch, ht, hqrt, htrt, hprt⟩ :=
              parse_rest_props hp
            subst ht
            have hkd : keysOk (.map d) = true := by
              obtain ⟨kk, hmem⟩ := mapGet_mem hw
              exact keysOkPairs_mem hko.2 hmem
            have hkd2 : nodupB (strKeys d) = true ∧ keysOkPairs d = true := by
              simp only [keysOk, Bool.and_eq_true] at hkd
              exact hkd
            obtain ⟨hids, helems⟩ := parse_map_props d children hpm
            have hchild : ∀ wd ∈ children, valid_id wd.id = true
                ∧ parse_whatdo wd.id (serialize_whatdo wd).2 = .ok wd := by
              intro wd hwmem
              obtain ⟨hvalid, vv, hvmem, hpwd⟩ := helems wd hwmem
              refine ⟨hvalid, ?_⟩
              have hsz : sizeOf vv < sizeOf (Yaml.map items) := by
                have h1 : sizeOf (Yaml.map d) < sizeOf items := sizeOf_mapGet hw
                have h2 := List.sizeOf_lt_of_mem hvmem
                simp only [Prod.mk.sizeOf_spec] at h2
                simp only [Yaml.map.sizeOf_spec] at h1 ⊢
                omega
              exact IH vv hsz (keysOkPairs_mem hkd2.2 hvmem) wd.id wd hpwd
            rw [serialize_full (.mk id summary (some children) queue priority tags branch false) rfl]
            dsimp only
            have hnodup : (children.map Whatdo.id).Nodup := by
              rw [hids]
              exact nodupB_nodup hkd2.1
            have haux : serializeChildrenAux [] children = children.map serialize_whatdo :=
              serializeChildrenAux_eq children [] (fun sub _ => mapGet_nil sub.id) hnodup
            obtain ⟨g1, g2, g3, g4, g5, g6⟩ := serializeFields_get
              (.mk id summary (some children) queue priority tags branch false)
            have hgs : getSummary (serializeFields
                (.mk id summary (some children) queue priority tags branch false)) =
                .ok summary := getSummary_of _ summary g1
            have hg6 : mapGet (serializeFields
                (.mk id summary (some children) queue priority tags branch false))
                "whatdos" = some (.map (serializeChildrenAux [] children)) := by
              rw [g6]
              rfl
            rw [parse_whatdo_unfold_children hgs hg6
              (by rw [haux]; exact parse_map_reparse children hchild)]
            exact parse_rest_reparse _ id summary (some children) queue priority tags
              branch g5 g2 g4 g3 hqrt htrt hprt
  | int n =>
    rw [parse_whatdo.eq_def] at hp
    simp at hp
  | bool b =>
    rw [parse_whatdo.eq_def] at hp
    simp at hp
  | null =>
    rw [parse_whatdo.eq_def] at hp
    simp at hp
  | seq l =>
    rw [parse_whatdo.eq_def] at hp
    simp at hp

/-- **C5**: for every valid document (every mapping in it has pairwise
distinct string keys, the invariant serde_yaml's `IndexMap` guarantees),
parsing it, serializing the resulting tree, and parsing again yields the
same result as parsing the document once:
`parse(serialize(parse(doc))) = parse(doc)`. -/
theorem c5_parse_serialize_roundtrip (name : String) (doc : Yaml) (t : Whatdo)
    (hkeys : keysOk doc = true) (hp : parse_whatdo name doc = .ok t) :
    parse_whatdo name (serialize_whatdo t).2 = parse_whatdo name doc := by
  rw [hp]
  exact parse_serialize_reparse doc hkeys name t hp

/-- Concrete instance of C5: a mapping document with a summary field parses,
and the parse-serialize-parse round trip reproduces the single parse. -/
theorem c5_parse_serialize_roundtrip_witness :
    keysOk (Yaml.map [(Yaml.str "summary", Yaml.str "s")]) = true
    ∧ parse_whatdo "proj" (serialize_whatdo
          (Whatdo.mk "proj" (some "s") none none none none none false)).2 =
        parse_whatdo "proj" (Yaml.map [(Yaml.str "summary", Yaml.str "s")]) :=
  ⟨by decide,
    c5_parse_serialize_roundtrip "proj" (Yaml.map [(Yaml.str "summary", Yaml.str "s")])
      (Whatdo.mk "proj" (some "s") none none none none none false) (by decide)
      (by
        rw [parse_whatdo_unfold_none
          (show getSummary [(Yaml.str "summary", Yaml.str "s")] = .ok (some "s") from rfl)
          rfl]
        rfl)⟩

/-- Counterexample to C4 as stated: the new task's effective reference name
("r", from its branch_name) collides with the root's, yet `add` fails with
the invalid-tag error, not a uniqueness error — tag validation runs before
the branch-name collision check. -/
theorem c4_counterexample :
    (findPred (fun wd =>
        (newWhatdo "x" ["A"] none none (some "r")).branchNameEff == wd.branchNameEff)
      (Whatdo.mk "r" none none none none none none false)).isSome = true
    ∧ add (Whatdo.mk "r" none none none none none none false) "x" ["A"] none none
        (some "r") none none (fun _ => false) =
      (none, .error .invalidTag) :=
  ⟨rfl, rfl⟩

/-- **C4** (corrected): an id collision always fails with the duplicate-id
error (that check runs first); when the tags and the id pass validation, a
collision of the new task's effective reference name with any task's fails
with a uniqueness error (duplicate id or duplicate branch name); and every
failure of `add` returns before anything is mutated or written: the
written-tree component of the result is `none` whenever the result is an
error.  (As stated the claim is false: an invalid tag or id masks the
branch-name uniqueness error, see the counterexample.) -/
theorem c4_add_uniqueness (root : Whatdo) (id : String) (tags : List String)
    (summary : Option String) (priority : Option Int)
    (branch_name : Option String) (parent_id : Option String)
    (currentWd : Option Whatdo) (gbe : String → Bool) :
    ((findPred (fun wd => wd.id == id) root).isSome = true →
      add root id tags summary priority branch_name parent_id currentWd gbe =
        (none, .error .duplicateId))
    ∧ (tags.all valid_tag = true → valid_id id = true →
        (findPred (fun wd =>
            (newWhatdo id tags summary priority branch_name).branchNameEff
              == wd.branchNameEff) root).isSome = true →
        add root id tags summary priority branch_name parent_id currentWd gbe =
            (none, .error .duplicateId)
          ∨ add root id tags summary priority branch_name parent_id currentWd gbe =
            (none, .error .duplicateBranch))
    ∧ (∀ e, (add root id tags summary priority branch_name parent_id currentWd gbe).2 =
          .error e →
        (add root id tags summary priority branch_name parent_id currentWd gbe).1 =
          none) := by
  refine ⟨?_, ?_, ?_⟩
  · intro h
    rw [add.eq_def, if_pos h]
  · intro ht hv hbr
    by_cases hid : (findPred (fun wd => wd.id == id) root).isSome = true
    · left
      rw [add.eq_def, if_pos hid]
    · right
      rw [add.eq_def, if_neg hid, if_neg (by simp [ht]), if_neg (by simp [hv]), if_pos hbr]
  · intro e h
    by_cases h1 : (findPred (fun wd => wd.id == id) root).isSome = true
    · rw [add.eq_def, if_pos h1]
    · by_cases h2 : (!(tags.all valid_tag)) = true
      · rw [add.eq_def, if_neg h1, if_pos h2]
      · by_cases h3 : (!(valid_id id)) = true
        · rw [add.eq_def, if_neg h1, if_neg h2, if_pos h3]
        · by_cases h4 : (findPred (fun wd =>
              (newWhatdo id tags summary priority branch_name).branchNameEff
                == wd.branchNameEff) root).isSome = true
          · rw [add.eq_def, if_neg h1, if_neg h2, if_neg h3, if_pos h4]
          · by_cases h5 : gbe (newWhatdo id tags summary priority branch_name).branchNameEff = true
            · rw [add.eq_def, if_neg h1, if_neg h2, if_neg h3, if_neg h4, if_pos h5]
            · rw [add.eq_def, if_neg h1, if_neg h2, if_neg h3, if_neg h4, if_neg h5] at h ⊢
              rcases parent_id with _ | pid
              · exact Except.noConfusion h
              · dsimp only at h ⊢
                by_cases hat : (pid == "@") = true
                · rw [if_pos hat] at h ⊢
                  rcases currentWd with _ | c
                  · rfl
                  · dsimp only at h ⊢
                    rcases haa : addAt (fun wd => wd.id == c.id)
                        (newWhatdo id tags summary priority branch_name) root with _ | pr
                    · simp only [haa]
                    · obtain ⟨r2, p2⟩ := pr
                      simp only [haa] at h
                      exact Except.noConfusion h
                · rw [if_neg hat] at h ⊢
                  dsimp only at h ⊢
                  rcases haa : addAt (fun wd => wd.id == pid)
                      (newWhatdo id tags summary priority branch_name) root with _ | pr
                  · simp only [haa]
                  · obtain ⟨r2, p2⟩ := pr
                    simp only [haa] at h
                    exact Except.noConfusion h

/-- Concrete instance of C4 (amended form): a colliding id yields the
duplicate-id error; a fresh valid id with valid tags and a colliding
effective branch name yields a uniqueness error; and a failing `add`
writes nothing. -/
theorem c4_add_uniqueness_witness :
    (add (Whatdo.mk "r" none none none none none none false) "r" [] none none none
        none none (fun _ => false) = (none, .error .duplicateId))
    ∧ (add (Whatdo.mk "r" none none none none none none false) "x" ["t"] none none
          (some "r") none none (fun _ => false) = (none, .error .duplicateId)
        ∨ add (Whatdo.mk "r" none none none none none none false) "x" ["t"] none none
          (some "r") none none (fun _ => false) = (none, .error .duplicateBranch))
    ∧ (add (Whatdo.mk "r" none none none none none none false) "x" ["t"] none none
          (some "r") none none (fun _ => false)).1 = none :=
  ⟨(c4_add_uniqueness (Whatdo.mk "r" none none none none none none false) "r" [] none
      none none none none (fun _ => false)).1 rfl,
   (c4_add_uniqueness (Whatdo.mk "r" none none none none none none false) "x" ["t"]
      none none (some "r") none none (fun _ => false)).2.1 rfl rfl rfl,
   (c4_add_uniqueness (Whatdo.mk "r" none none none none none none false) "x" ["t"]
      none none (some "r") none none (fun _ => false)).2.2 AddError.duplicateBranch rfl⟩

theorem allNodes_eq (wd : Whatdo) : allNodes wd = wd :: allNodesList wd.whatdosList := by
  match wd with
  | .mk i s w q p t b f =>
    match w with
    | none =>
      rw [allNodes_unfold_none]
      simp [Whatdo.whatdosList, Whatdo.whatdos, allNodesList_nil]
    | some wds =>
      rw [allNodes_unfold_some]
      simp [Whatdo.whatdosList, Whatdo.whatdos]

theorem allNodesList_append (l1 l2 : List Whatdo) :
    allNodesList (l1 ++ l2) = allNodesList l1 ++ allNodesList l2 := by
  induction l1 with
  | nil => simp [allNodesList_nil]
  | cons c rest ih => simp [allNodesList_cons, ih, List.append_assoc]

theorem mem_allNodes_of_child {c wd n : Whatdo} (hc : c ∈ wd.whatdosList)
    (hn : n ∈ allNodes c) : n ∈ allNodes wd := by
  rw [allNodes_eq]
  exact List.mem_cons_of_mem _ (mem_allNodesList.mpr ⟨c, hc, hn⟩)

theorem pathTo_inv {x : String} {wd : Whatdo} {l : List Whatdo}
    (h : pathTo x wd = some l) :
    (wd.id = x ∧ l = [wd])
    ∨ (wd.id ≠ x ∧ ∃ rest, l = wd :: rest
        ∧ pathToList x wd.whatdosList = some rest) := by
  match wd with
  | .mk i s w q p t b f =>
    rw [pathTo.eq_def] at h
    dsimp only at h
    by_cases hid : ((Whatdo.mk i s w q p t b f).id == x) = true
    · rw [if_pos hid] at h
      simp only [Option.some.injEq] at h
      exact Or.inl ⟨beq_iff_eq.mp hid, h.symm⟩
    · rw [if_neg hid] at h
      have hne : (Whatdo.mk i s w q p t b f).id ≠ x := by
        intro he
        exact hid (by simp [he])
      cases w with
      | none => exact absurd h (by simp)
      | some wds =>
        rcases hpl : pathToList x wds with _ | rest
        · simp only [hpl] at h
          exact Option.noConfusion h
        · simp only [hpl, Option.some.injEq] at h
          exact Or.inr ⟨hne, rest, h.symm, hpl⟩

theorem pathTo_head {x : String} {wd : Whatdo} {l : List Whatdo}
    (h : pathTo x wd = some l) : ∃ r, l = wd :: r := by
  rcases pathTo_inv h with ⟨_, hl⟩ | ⟨_, r, hl, _⟩
  · exact ⟨[], hl⟩
  · exact ⟨r, hl⟩

theorem pathTo_nonempty {x : String} {wd : Whatdo} {l : List Whatdo}
    (h : pathTo x wd = some l) : l ≠ [] := by
  obtain ⟨r, hr⟩ := pathTo_head h
  rw [hr]
  exact List.cons_ne_nil _ _

theorem pathToList_decomp {x : String} : ∀ {l qq : List Whatdo},
    pathToList x l = some qq →
    ∃ pre c post, l = pre ++ c :: post ∧ (∀ c2 ∈ pre, pathTo x c2 = none)
      ∧ pathTo x c = some qq := by
  intro l
  induction l with
  | nil =>
    intro qq h
    rw [pathToList] at h
    exact absurd h (by simp)
  | cons c rest ih =>
    intro qq h
    rw [pathToList] at h
    rcases hc : pathTo x c with _ | pth
    · simp only [hc] at h
      obtain ⟨pre, c2, post, h1, h2, h3⟩ := ih h
      refine ⟨c :: pre, c2, post, by rw [h1, List.cons_append], ?_, h3⟩
      intro c3 hc3
      rcases List.mem_cons.mp hc3 with he | hm
      · rw [he]
        exact hc
      · exact h2 c3 hm
    · simp only [hc, Option.some.injEq] at h
      exact ⟨[], c, rest, rfl, fun c3 hc3 => absurd hc3 (List.not_mem_nil c3),
        by rw [hc, h]⟩

theorem pathToList_none_aux (x : String) (l : List Whatdo)
    (IH : ∀ c ∈ l, pathTo x c = none → ∀ n ∈ allNodes c, n.id ≠ x) :
    pathToList x l = none → ∀ n ∈ allNodesList l, n.id ≠ x := by
  induction l with
  | nil =>
    intro _ n hn
    rw [allNodesList_nil] at hn
    exact absurd hn (List.not_mem_nil n)
  | cons c rest ih =>
    intro h n hn
    rw [pathToList] at h
    rcases hc : pathTo x c with _ | pth
    · simp only [hc] at h
      rw [allNodesList_cons] at hn
      rcases List.mem_append.mp hn with hn | hn
      · exact IH c (List.mem_cons_self _ _) hc n hn
      · exact ih (fun c2 h2 => IH c2 (List.mem_cons_of_mem _ h2)) h n hn
    · simp only [hc] at h
      exact Option.noConfusion h

theorem pathTo_none_prop (x : String) : ∀ wd : Whatdo, pathTo x wd = none →
    ∀ n ∈ allNodes wd, n.id ≠ x := by
  apply whatdo_size_ind
  intro wd IH h n hn
  match wd with
  | .mk i s w q p t b f =>
    rw [pathTo.eq_def] at h
    dsimp only at h
    by_cases hid : ((Whatdo.mk i s w q p t b f).id == x) = true
    · rw [if_pos hid] at h
      exact Option.noConfusion h
    · rw [if_neg hid] at h
      have hne : (Whatdo.mk i s w q p t b f).id ≠ x := by
        intro he
        exact hid (by simp [he])
      cases w with
      | none =>
        rw [allNodes_unfold_none] at hn
        rcases List.mem_singleton.mp hn with hn
        rw [hn]
        exact hne
      | some wds =>
        rcases hpl : pathToList x wds with _ | rest
        · rw [allNodes_unfold_some] at hn
          rcases List.mem_cons.mp hn with hn | hn
          · rw [hn]
            exact hne
          · exact pathToList_none_aux x wds
              (fun c hc => IH c (sizeOf_mem_whatdos (show c ∈
                (Whatdo.mk i s (some wds) q p t b f).whatdosList from hc)))
              hpl n hn
        · simp only [hpl] at h
          exact Option.noConfusion h

theorem pathTo_props (x : String) : ∀ wd : Whatdo, ∀ l, pathTo x wd = some l →
    (∀ n ∈ l, n ∈ allNodes wd) ∧ ∃ nX, nX ∈ allNodes wd ∧ nX.id = x := by
  apply whatdo_size_ind
  intro wd IH l h
  rcases pathTo_inv h with ⟨hid, hl⟩ | ⟨hne, rest, hl, hpl⟩
  · subst hl
    exact ⟨fun n hn => by
        rcases List.mem_singleton.mp hn with hn
        rw [hn]
        exact self_mem_allNodes wd,
      wd, self_mem_allNodes wd, hid⟩
  · obtain ⟨pre, c, post, hsplit, _, hc⟩ := pathToList_decomp hpl
    have hcmem : c ∈ wd.whatdosList := by
      rw [hsplit]
      exact List.mem_append.mpr (Or.inr (List.mem_cons_self _ _))
    obtain ⟨hmem, nX, hnXmem, hnXid⟩ :=
      IH c (sizeOf_mem_whatdos hcmem) rest hc
    subst hl
    refine ⟨?_, nX, mem_allNodes_of_child hcmem hnXmem, hnXid⟩
    intro n hn
    rcases List.mem_cons.mp hn with hn | hn
    · rw [hn]
      exact self_mem_allNodes wd
    · exact mem_allNodes_of_child hcmem (hmem n hn)

theorem getLast?_append_single (l : List String) (a : String) :
    (l ++ [a]).getLast? = some a := by
  exact List.getLast?_concat l

theorem fmtRecList_fruitless_aux (fl : Whatdo → Bool) (tr : Bool) (rootId : String)
    (l : List Whatdo)
    (IH : ∀ c ∈ l, ∀ buf level, fmtRec fl tr rootId c buf level false = ([], buf)) :
    ∀ buf level, fmtRecList fl tr rootId l buf level false = ([], buf) := by
  induction l with
  | nil =>
    intro buf level
    rw [fmtRecList_nil]
  | cons c rest ih =>
    intro buf level
    rw [fmtRecList_cons fl tr rootId c rest buf level false ([], buf) ([], buf)
      (IH c (List.mem_cons_self _ _) buf level)
      (ih (fun c2 h2 => IH c2 (List.mem_cons_of_mem _ h2)) buf level)]
    rfl

theorem fmtRec_fruitless (fl : Whatdo → Bool) (tr : Bool) (rootId : String) :
    ∀ wd : Whatdo, (∀ n ∈ allNodes wd, fl n = false) →
    (∀ n ∈ allNodes wd, n.id ≠ rootId) →
    ∀ buf level, fmtRec fl tr rootId wd buf level false = ([], buf) := by
  apply whatdo_size_ind
  intro wd IH hfl hroot buf level
  have hself : fl wd = false := hfl wd (self_mem_allNodes wd)
  have hid : wd.id ≠ rootId := hroot wd (self_mem_allNodes wd)
  rw [fmtRec_eq_push fl tr rootId wd buf level false hid hself (by simp)
    ([], buf ++ [wd.id])
    (fmtRecList_fruitless_aux fl tr rootId wd.whatdosList
      (fun c hc buf2 level2 => IH c (sizeOf_mem_whatdos hc)
        (fun n hn => hfl n (mem_allNodes_of_child hc hn))
        (fun n hn => hroot n (mem_allNodes_of_child hc hn)) buf2 level2)
      (buf ++ [wd.id]) (level + 1))]
  dsimp only
  rw [if_pos (getLast?_append_single buf wd.id)]
  rw [show (buf ++ [wd.id]).dropLast = buf from by simp]

theorem fmtRecList_fruitless (fl : Whatdo → Bool) (tr : Bool) (rootId : String)
    (l : List Whatdo)
    (hfl : ∀ c ∈ l, ∀ n ∈ allNodes c, fl n = false)
    (hroot : ∀ c ∈ l, ∀ n ∈ allNodes c, n.id ≠ rootId) :
    ∀ buf level, fmtRecList fl tr rootId l buf level false = ([], buf) :=
  fmtRecList_fruitless_aux fl tr rootId l
    (fun c hc buf level =>
      fmtRec_fruitless fl tr rootId c (hfl c hc) (hroot c hc) buf level)

theorem fmtRecList_anc_aux (fl : Whatdo → Bool) (rootId : String) (l : List Whatdo)
    (IH : ∀ c ∈ l, ∀ buf level, (fmtRec fl true rootId c buf level true).2 = []) :
    ∀ level, (fmtRecList fl true rootId l [] level true).2 = [] := by
  induction l with
  | nil =>
    intro level
    rw [fmtRecList_nil]
  | cons c rest ih =>
    intro level
    rw [fmtRecList_cons fl true rootId c rest [] level true
      (fmtRec fl true rootId c [] level true)
      (fmtRecList fl true rootId rest (fmtRec fl true rootId c [] level true).2
        level true) rfl rfl]
    dsimp only
    rw [IH c (List.mem_cons_self _ _) [] level]
    exact ih (fun c2 h2 => IH c2 (List.mem_cons_of_mem _ h2)) level

theorem fmtRec_anc (fl : Whatdo → Bool) (rootId : String) :
    ∀ wd : Whatdo, (∀ n ∈ allNodes wd, n.id ≠ rootId) →
    ∀ buf level, (fmtRec fl true rootId wd buf level true).2 = [] := by
  apply whatdo_size_ind
  intro wd IH hroot buf level
  have hid : wd.id ≠ rootId := hroot wd (self_mem_allNodes wd)
  have hlist : (fmtRecList fl true rootId wd.whatdosList [] (level + 1) true).2 = [] :=
    fmtRecList_anc_aux fl rootId wd.whatdosList
      (fun c hc buf2 level2 => IH c (sizeOf_mem_whatdos hc)
        (fun n hn => hroot n (mem_allNodes_of_child hc hn)) buf2 level2)
      (level + 1)
  by_cases hsat : fl wd = true
  · rw [fmtRec_eq_full fl true rootId wd buf level true hid hsat _ rfl]
    dsimp only
    rw [hlist]
    simp
  · have hsat2 : fl wd = false := by
      rcases hf2 : fl wd with _ | _
      · rfl
      · exact absurd hf2 hsat
    rw [fmtRec_eq_dim fl true rootId wd buf level true hid hsat2 rfl _ rfl]
    dsimp only
    rw [hlist]
    simp

theorem fmtRecList_anc (fl : Whatdo → Bool) (rootId : String) (l : List Whatdo)
    (hroot : ∀ c ∈ l, ∀ n ∈ allNodes c, n.id ≠ rootId) :
    ∀ level, (fmtRecList fl true rootId l [] level true).2 = [] :=
  fmtRecList_anc_aux fl rootId l
    (fun c hc buf level => fmtRec_anc fl rootId c (hroot c hc) buf level)

theorem fmtRecList_append (fl : Whatdo → Bool) (tr : Bool) (rootId : String) :
    ∀ (l1 l2 : List Whatdo) (buf : List String) (level : Nat) (anc : Bool)
      (A B : List RLine × List String),
    fmtRecList fl tr rootId l1 buf level anc = A →
    fmtRecList fl tr rootId l2 A.2 level anc = B →
    fmtRecList fl tr rootId (l1 ++ l2) buf level anc = (A.1 ++ B.1, B.2) := by
  intro l1
  induction l1 with
  | nil =>
    intro l2 buf level anc A B hA hB
    rw [fmtRecList_nil] at hA
    subst hA
    rw [List.nil_append]
    simp [hB]
  | cons c r ih =>
    intro l2 buf level anc A B hA hB
    rw [fmtRecList_cons fl tr rootId c r buf level anc _ _ rfl rfl] at hA
    subst hA
    rw [List.cons_append,
      fmtRecList_cons fl tr rootId c (r ++ l2) buf level anc
        (fmtRec fl tr rootId c buf level anc)
        ((fmtRecList fl tr rootId r (fmtRec fl tr rootId c buf level anc).2
            level anc).1 ++ B.1, B.2)
        rfl
        (ih l2 (fmtRec fl tr rootId c buf level anc).2 level anc _ B rfl hB)]
    dsimp only
    rw [List.append_assoc]

theorem fmtRecList_spine_assemble (fl : Whatdo → Bool) (rootId : String)
    (pre post : List Whatdo) (b : Whatdo) (buf : List String) (level : Nat)
    (Lb : List RLine)
    (hpre : fmtRecList fl true rootId pre buf level false = ([], buf))
    (hb : fmtRec fl true rootId b buf level false = (Lb, []))
    (hpost : fmtRecList fl true rootId post [] level false = ([], [])) :
    fmtRecList fl true rootId (pre ++ b :: post) buf level false = (Lb, []) := by
  rw [fmtRecList_append fl true rootId pre (b :: post) buf level false ([], buf)
    (Lb ++ [], []) hpre
    (fmtRecList_cons fl true rootId b post buf level false (Lb, []) ([], []) hb hpost)]
  simp

theorem fmtRec_at_target (X rootId : String) (b : Whatdo)
    (hid : b.id = X) (hroot : ∀ n ∈ allNodes b, n.id ≠ rootId) :
    ∀ buf level,
    fmtRec (fun n => n.id == X) true rootId b buf level false =
      (flushLines buf level ++ RLine.full b (level - 1)
          :: (fmtRecList (fun n => n.id == X) true rootId b.whatdosList []
              (level + 1) true).1,
       []) := by
  intro buf level
  have hbne : b.id ≠ rootId := hroot b (self_mem_allNodes b)
  have hsat : (fun n : Whatdo => n.id == X) b = true := by simp [hid]
  have hA2 : (fmtRecList (fun n : Whatdo => n.id == X) true rootId b.whatdosList []
      (level + 1) true).2 = [] :=
    fmtRecList_anc _ rootId b.whatdosList
      (fun c hc n hn => hroot n (mem_allNodes_of_child hc hn)) (level + 1)
  rw [fmtRec_eq_full (fun n : Whatdo => n.id == X) true rootId b buf level false
    hbne hsat _ rfl]
  rw [hA2, List.append_assoc]
  simp

theorem fmtRec_spine (X rootId : String) :
    ∀ (q : List Whatdo), ∀ wd : Whatdo,
    pathTo X wd = some (wd :: q) →
    ((allNodes wd).map Whatdo.id).Nodup →
    (∀ n ∈ allNodes wd, n.id ≠ rootId) →
    ∀ buf level XN, q.getLast? = some XN →
    fmtRec (fun n => n.id == X) true rootId wd buf level false =
      (flushLines (buf ++ (wd :: q).dropLast.map Whatdo.id) (level + q.length)
        ++ RLine.full XN (level + q.length - 1)
          :: (fmtRecList (fun n => n.id == X) true rootId XN.whatdosList []
              (level + q.length + 1) true).1,
       []) := by
  intro q
  induction q with
  | nil =>
    intro wd _ _ _ buf level XN hXN
    exact absurd hXN (by simp)
  | cons b q2 ih =>
    intro wd hpath hnodup hroot buf level XN hXN
    rcases pathTo_inv hpath with ⟨_, habs⟩ | ⟨hneX, rest, hcons, hpl⟩
    · exact absurd habs (by simp)
    · have hrest : rest = b :: q2 := by
        injection hcons with _ h2
        exact h2.symm
      subst hrest
      obtain ⟨pre, c, post, hsplit, hprenone, hc⟩ := pathToList_decomp hpl
      obtain ⟨r2, hr2⟩ := pathTo_head hc
      have hcb : c = b := by
        injection hr2 with h1 h2
        exact h1.symm
      rw [hcb] at hsplit hc
      have hwdne : wd.id ≠ rootId := hroot wd (self_mem_allNodes wd)
      have hbmem : b ∈ wd.whatdosList := by
        rw [hsplit]
        exact List.mem_append.mpr (Or.inr (List.mem_cons_self _ _))
      have hAN : allNodes wd =
          wd :: (allNodesList pre ++ (allNodes b ++ allNodesList post)) := by
        rw [allNodes_eq wd, hsplit, allNodesList_append, allNodesList_cons]
      have hnod2 : ((allNodesList pre).map Whatdo.id ++
          ((allNodes b).map Whatdo.id ++ (allNodesList post).map Whatdo.id)).Nodup := by
        rw [hAN] at hnodup
        simp only [List.map_cons, List.map_append] at hnodup
        exact (List.nodup_cons.mp hnodup).2
      have hnodb : ((allNodes b).map Whatdo.id).Nodup :=
        List.Nodup.sublist
          ((List.sublist_append_left _ _).trans (List.sublist_append_right _ _)) hnod2
      have hrootb : ∀ n ∈ allNodes b, n.id ≠ rootId :=
        fun n hn => hroot n (mem_allNodes_of_child hbmem hn)
      obtain ⟨hbmemall, nX, hnXb, hnXid⟩ := pathTo_props X b (b :: q2) hc
      have hpremem : ∀ c2 ∈ pre, c2 ∈ wd.whatdosList := by
        intro c2 hc2
        rw [hsplit]
        exact List.mem_append.mpr (Or.inl hc2)
      have hpostmem : ∀ c2 ∈ post, c2 ∈ wd.whatdosList := by
        intro c2 hc2
        rw [hsplit]
        exact List.mem_append.mpr (Or.inr (List.mem_cons_of_mem _ hc2))
      have hpreF : fmtRecList (fun n : Whatdo => n.id == X) true rootId pre
          (buf ++ [wd.id]) (level + 1) false = ([], buf ++ [wd.id]) :=
        fmtRecList_fruitless _ true rootId pre
          (fun c2 hc2 n hn =>
            beq_eq_false_iff_ne.mpr (pathTo_none_prop X c2 (hprenone c2 hc2) n hn))
          (fun c2 hc2 n hn => hroot n (mem_allNodes_of_child (hpremem c2 hc2) hn))
          (buf ++ [wd.id]) (level + 1)
      have hdisj : ∀ n ∈ allNodesList post, n.id ≠ X := by
        intro n hn hnx
        have h1 : X ∈ (allNodes b).map Whatdo.id := by
          have h3 := List.mem_map_of_mem Whatdo.id hnXb
          rw [hnXid] at h3
          exact h3
        have h2 : X ∈ (allNodesList post).map Whatdo.id := by
          have h3 := List.mem_map_of_mem Whatdo.id hn
          rw [hnx] at h3
          exact h3
        have hmid : ((allNodes b).map Whatdo.id
            ++ (allNodesList post).map Whatdo.id).Nodup :=
          List.Nodup.sublist (List.sublist_append_right _ _) hnod2
        exact List.disjoint_of_nodup_append hmid h1 h2
      have hpostF : fmtRecList (fun n : Whatdo => n.id == X) true rootId post []
          (level + 1) false = ([], []) :=
        fmtRecList_fruitless _ true rootId post
          (fun c2 hc2 n hn =>
            beq_eq_false_iff_ne.mpr (hdisj n (mem_allNodesList.mpr ⟨c2, hc2, hn⟩)))
          (fun c2 hc2 n hn => hroot n (mem_allNodes_of_child (hpostmem c2 hc2) hn))
          [] (level + 1)
      have hsatwd : (fun n : Whatdo => n.id == X) wd = false :=
        beq_eq_false_iff_ne.mpr hneX
      rcases q2 with _ | ⟨c2h, rest2⟩
      · have hXNb : b = XN := by
          simp at hXN
          exact hXN
        subst hXNb
        have hbX : b.id = X := by
          rcases pathTo_inv hc with ⟨h1, _⟩ | ⟨_, r3, hr3, hplb⟩
          · exact h1
          · injection hr3 with _ h4
            rw [← h4] at hplb
            obtain ⟨pre2, c3, post2, _, _, hc3⟩ := pathToList_decomp hplb
            exact absurd rfl (pathTo_nonempty hc3)
        have hb := fmtRec_at_target X rootId b hbX hrootb (buf ++ [wd.id]) (level + 1)
        have hasm := fmtRecList_spine_assemble (fun n : Whatdo => n.id == X) rootId
          pre post b (buf ++ [wd.id]) (level + 1) _ hpreF hb hpostF
        rw [← hsplit] at hasm
        rw [fmtRec_eq_push (fun n : Whatdo => n.id == X) true rootId wd buf level false
          hwdne hsatwd rfl _ hasm]
        dsimp only
        rw [if_neg (by simp)]
        rfl
      · have hXN2 : (c2h :: rest2).getLast? = some XN := by
          rw [List.getLast?_cons_cons] at hXN
          exact hXN
        have hb := ih b hc hnodb hrootb (buf ++ [wd.id]) (level + 1) XN hXN2
        have hasm := fmtRecList_spine_assemble (fun n : Whatdo => n.id == X) rootId
          pre post b (buf ++ [wd.id]) (level + 1) _ hpreF hb hpostF
        rw [← hsplit] at hasm
        rw [fmtRec_eq_push (fun n : Whatdo => n.id == X) true rootId wd buf level false
          hwdne hsatwd rfl _ hasm]
        dsimp only
        rw [if_neg (by simp)]
        have e1 : level + (b :: c2h :: rest2).length = (level + 1) + (c2h :: rest2).length := by
          simp only [List.length_cons]
          omega
        rw [e1]
        have e2 : buf ++ ((wd :: b :: c2h :: rest2).dropLast.map Whatdo.id) =
            (buf ++ [wd.id]) ++ ((b :: c2h :: rest2).dropLast.map Whatdo.id) := by
          simp
        rw [e2]

theorem fmtRecList_nomatch_aux (fl : Whatdo → Bool) (tr : Bool) (rootId : String)
    (l : List Whatdo)
    (IH : ∀ c ∈ l, ∀ buf level, (fmtRec fl tr rootId c buf level false).1 = []) :
    ∀ buf level, (fmtRecList fl tr rootId l buf level false).1 = [] := by
  induction l with
  | nil =>
    intro buf level
    rw [fmtRecList_nil]
  | cons c rest ih =>
    intro buf level
    rw [fmtRecList_cons fl tr rootId c rest buf level false
      (fmtRec fl tr rootId c buf level false)
      (fmtRecList fl tr rootId rest (fmtRec fl tr rootId c buf level false).2
        level false) rfl rfl]
    dsimp only
    rw [IH c (List.mem_cons_self _ _) buf level,
      ih (fun c2 h2 => IH c2 (List.mem_cons_of_mem _ h2))
        (fmtRec fl tr rootId c buf level false).2 level]
    rfl

theorem fmtRec_nomatch (fl : Whatdo → Bool) (tr : Bool) (rootId : String) :
    ∀ wd : Whatdo, (∀ n ∈ allNodes wd, fl n = false) →
    ∀ buf level, (fmtRec fl tr rootId wd buf level false).1 = [] := by
  apply whatdo_size_ind
  intro wd IH hfl buf level
  have hself : fl wd = false := hfl wd (self_mem_allNodes wd)
  have hlist := fmtRecList_nomatch_aux fl tr rootId wd.whatdosList
    (fun c hc buf2 level2 => IH c (sizeOf_mem_whatdos hc)
      (fun n hn => hfl n (mem_allNodes_of_child hc hn)) buf2 level2)
  by_cases hidr : wd.id ≠ rootId
  · rw [fmtRec_eq_push fl tr rootId wd buf level false hidr hself (by simp) _ rfl]
    dsimp only
    exact hlist (buf ++ [wd.id]) (level + 1)
  · rw [fmtRec_eq_root fl tr rootId wd buf level false hidr _ rfl]
    dsimp only
    have hanc : (fl wd || (tr && false)) = false := by simp [hself]
    rw [hanc]
    exact hlist buf (level + 1)

/-- **C9**: for a tree with pairwise-distinct ids containing a node with id
X below the root, rendering with the filter `id == X` and `transitive =
true` prints exactly: the non-root strict ancestors of the X node as dimmed
context lines, shallowest first (the i-th at indent width i), then the full
line for the X node, then only lines produced inside the X node's own
subtree (its descendants, dimmed by transitivity) — in particular nothing
from any fruitless sibling subtree along the way; and a filter matching no
node renders no lines at all. -/
theorem c9_render_filtered (T : Whatdo) (X : String) (p : List Whatdo) (XN : Whatdo)
    (hU : UniqueIds T) (hX : T.id ≠ X)
    (hp : pathTo X T = some (T :: p)) (hXN : p.getLast? = some XN) :
    (renderModel (fun n => n.id == X) true T =
      flushLines (p.dropLast.map Whatdo.id) p.length
        ++ RLine.full XN (p.length - 1)
          :: (fmtRecList (fun n => n.id == X) true T.id XN.whatdosList []
              (p.length + 1) true).1)
    ∧ ∀ (fl : Whatdo → Bool) (tr : Bool),
        (∀ n ∈ allNodes T, fl n = false) → renderModel fl tr T = [] := by
  constructor
  · rcases pathTo_inv hp with ⟨habs, _⟩ | ⟨hneX, rest, hcons, hpl⟩
    · exact absurd habs hX
    · have hrest : rest = p := by
        injection hcons with _ h2
        exact h2.symm
      subst hrest
      obtain ⟨pre, c, post, hsplit, hprenone, hc⟩ := pathToList_decomp hpl
      obtain ⟨r2, hr2⟩ := pathTo_head hc
      subst hr2
      have h0 : ((allNodes T).map Whatdo.id).Nodup := hU
      have hcmem : c ∈ T.whatdosList := by
        rw [hsplit]
        exact List.mem_append.mpr (Or.inr (List.mem_cons_self _ _))
      have hAN : allNodes T =
          T :: (allNodesList pre ++ (allNodes c ++ allNodesList post)) := by
        rw [allNodes_eq T, hsplit, allNodesList_append, allNodesList_cons]
      have hrootCh : ∀ n ∈ allNodesList T.whatdosList, n.id ≠ T.id := by
        have h1 := h0
        rw [allNodes_eq T, List.map_cons] at h1
        intro n hn he
        exact (List.nodup_cons.mp h1).1
          (by rw [← he]; exact List.mem_map_of_mem Whatdo.id hn)
      have hnod2 : ((allNodesList pre).map Whatdo.id ++
          ((allNodes c).map Whatdo.id ++ (allNodesList post).map Whatdo.id)).Nodup := by
        rw [hAN] at h0
        simp only [List.map_cons, List.map_append] at h0
        exact (List.nodup_cons.mp h0).2
      have hnodc : ((allNodes c).map Whatdo.id).Nodup :=
        List.Nodup.sublist
          ((List.sublist_append_left _ _).trans (List.sublist_append_right _ _)) hnod2
      have hrootc : ∀ n ∈ allNodes c, n.id ≠ T.id :=
        fun n hn => hrootCh n (mem_allNodesList.mpr ⟨c, hcmem, hn⟩)
      obtain ⟨hcmemall, nX, hnXc, hnXid⟩ := pathTo_props X c (c :: r2) hc
      have hpremem : ∀ c2 ∈ pre, c2 ∈ T.whatdosList := by
        intro c2 hc2
        rw [hsplit]
        exact List.mem_append.mpr (Or.inl hc2)
      have hpostmem : ∀ c2 ∈ post, c2 ∈ T.whatdosList := by
        intro c2 hc2
        rw [hsplit]
        exact List.mem_append.mpr (Or.inr (List.mem_cons_of_mem _ hc2))
      have hpreF : fmtRecList (fun n : Whatdo => n.id == X) true T.id pre []
          (0 + 1) false = ([], []) :=
        fmtRecList_fruitless _ true T.id pre
          (fun c2 hc2 n hn =>
            beq_eq_false_iff_ne.mpr (pathTo_none_prop X c2 (hprenone c2 hc2) n hn))
          (fun c2 hc2 n hn =>
            hrootCh n (mem_allNodesList.mpr ⟨c2, hpremem c2 hc2, hn⟩))
          [] (0 + 1)
      have hdisj : ∀ n ∈ allNodesList post, n.id ≠ X := by
        intro n hn hnx
        have h1 : X ∈ (allNodes c).map Whatdo.id := by
          have h3 := List.mem_map_of_mem Whatdo.id hnXc
          rw [hnXid] at h3
          exact h3
        have h2 : X ∈ (allNodesList post).map Whatdo.id := by
          have h3 := List.mem_map_of_mem Whatdo.id hn
          rw [hnx] at h3
          exact h3
        have hmid : ((allNodes c).map Whatdo.id
            ++ (allNodesList post).map Whatdo.id).Nodup :=
          List.Nodup.sublist (List.sublist_append_right _ _) hnod2
        exact List.disjoint_of_nodup_append hmid h1 h2
      have hpostF : fmtRecList (fun n : Whatdo => n.id == X) true T.id post []
          (0 + 1) false = ([], []) :=
        fmtRecList_fruitless _ true T.id post
          (fun c2 hc2 n hn =>
            beq_eq_false_iff_ne.mpr (hdisj n (mem_allNodesList.mpr ⟨c2, hc2, hn⟩)))
          (fun c2 hc2 n hn =>
            hrootCh n (mem_allNodesList.mpr ⟨c2, hpostmem c2 hc2, hn⟩))
          [] (0 + 1)
      have hanc : ((fun n : Whatdo => n.id == X) T || (true && false)) = false := by
        simp [beq_eq_false_iff_ne.mpr hX]
      have hroot_eq := fmtRec_eq_root (fun n : Whatdo => n.id == X) true T.id T [] 0
        false (by simp)
        (fmtRecList (fun n : Whatdo => n.id == X) true T.id T.whatdosList [] (0 + 1)
          ((fun n : Whatdo => n.id == X) T || (true && false))) rfl
      rw [hanc] at hroot_eq
      rcases r2 with _ | ⟨c2h, rest2⟩
      · have hXNc : c = XN := by
          simp at hXN
          exact hXN
        subst hXNc
        have hcX : c.id = X := by
          rcases pathTo_inv hc with ⟨h1, _⟩ | ⟨_, r3, hr3, hplb⟩
          · exact h1
          · injection hr3 with _ h4
            rw [← h4] at hplb
            obtain ⟨pre2, c3, post2, _, _, hc3⟩ := pathToList_decomp hplb
            exact absurd rfl (pathTo_nonempty hc3)
        have hb := fmtRec_at_target X T.id c hcX hrootc [] (0 + 1)
        have hasm := fmtRecList_spine_assemble (fun n : Whatdo => n.id == X) T.id
          pre post c [] (0 + 1) _ hpreF hb hpostF
        rw [← hsplit] at hasm
        rw [hasm] at hroot_eq
        rw [renderModel, hroot_eq]
        rfl
      · have hXN2 : (c2h :: rest2).getLast? = some XN := by
          rw [List.getLast?_cons_cons] at hXN
          exact hXN
        have hb := fmtRec_spine X T.id (c2h :: rest2) c hc hnodc hrootc []
          (0 + 1) XN hXN2
        have hasm := fmtRecList_spine_assemble (fun n : Whatdo => n.id == X) T.id
          pre post c [] (0 + 1) _ hpreF hb hpostF
        rw [← hsplit] at hasm
        rw [hasm] at hroot_eq
        rw [renderModel, hroot_eq]
        dsimp only
        have e1 : (0 + 1) + (c2h :: rest2).length = (c :: c2h :: rest2).length := by
          simp only [List.length_cons]
          omega
        rw [e1]
        rw [show ([] : List String) ++ ((c :: c2h :: rest2).dropLast.map Whatdo.id) =
          (c :: c2h :: rest2).dropLast.map Whatdo.id from List.nil_append _]
  · intro fl tr hall
    rw [renderModel]
    exact fmtRec_nomatch fl tr T.id T hall [] 0

/-- Concrete instance of C9: in the three-node chain r → a → x, rendering
with filter `id == "x"` and transitive mode prints the dimmed context line
for "a", then the full line for "x" at depth 1, then the (empty) output of
x's subtree; a filter matching nothing prints no lines. -/
theorem c9_render_filtered_witness :
    (renderModel (fun n => n.id == "x") true
        (Whatdo.mk "r" none (some [Whatdo.mk "a" none
          (some [Whatdo.mk "x" none none none none none none false])
          none none none none false]) none none none none false) =
      flushLines ([Whatdo.mk "a" none
          (some [Whatdo.mk "x" none none none none none none false])
          none none none none false].map Whatdo.id) 2
        ++ RLine.full (Whatdo.mk "x" none none none none none none false) 1
          :: (fmtRecList (fun n => n.id == "x") true "r"
              (Whatdo.mk "x" none none none none none none false).whatdosList []
              3 true).1)
    ∧ renderModel (fun _ => false) true
        (Whatdo.mk "r" none (some [Whatdo.mk "a" none
          (some [Whatdo.mk "x" none none none none none none false])
          none none none none false]) none none none none false) = [] :=
  ⟨(c9_render_filtered
      (Whatdo.mk "r" none (some [Whatdo.mk "a" none
        (some [Whatdo.mk "x" none none none none none none false])
        none none none none false]) none none none none false) "x"
      [Whatdo.mk "a" none
        (some [Whatdo.mk "x" none none none none none none false])
        none none none none false,
       Whatdo.mk "x" none none none none none none false]
      (Whatdo.mk "x" none none none none none none false)
      (by decide) (by decide) rfl rfl).1,
   (c9_render_filtered
      (Whatdo.mk "r" none (some [Whatdo.mk "a" none
        (some [Whatdo.mk "x" none none none none none none false])
        none none none none false]) none none none none false) "x"
      [Whatdo.mk "a" none
        (some [Whatdo.mk "x" none none none none none none false])
        none none none none false,
       Whatdo.mk "x" none none none none none none false]
      (Whatdo.mk "x" none none none none none none false)
      (by decide) (by decide) rfl rfl).2
     (fun _ => false) true (fun n _ => rfl)⟩

end WhatdoCore
